import Mathlib

/-!
Verification of the `radicle-dag` graph engine and the `radicle-cob`
causal-history layer of the heartwood repository.

Keys (`K`) are modelled as `Nat`; `BTreeSet<K>` is modelled as a `List Nat`
kept sorted and duplicate-free by its operations, and `BTreeMap<K, _>` as an
association list kept sorted by key, so that every operation is executable
and states have decidable equality.
-/

namespace Radicle

/-- A node in the graph: a user value plus the set of keys this node depends
on and the set of keys depending on it (`Node` in `radicle-dag/src/lib.rs`). -/
structure Node (V : Type) where
  value : V
  dependencies : List Nat
  dependents : List Nat
deriving DecidableEq, Repr

/-- A directed acyclic graph: the keyed node map plus the cached tip and root
key sets (`Dag` in `radicle-dag/src/lib.rs`). -/
structure Dag (V : Type) where
  graph : List (Nat × Node V)
  tips : List Nat
  roots : List Nat
deriving DecidableEq, Repr

/-- Ordered insertion into a key list, mirroring where a BTreeSet would place
a new element. -/
def insertAsc (x : Nat) : List Nat → List Nat
  | [] => [x]
  | y :: ys => if x ≤ y then x :: y :: ys else y :: insertAsc x ys

/-- Set insertion mirroring `BTreeSet::insert`: no change when the element is
already present. -/
def insertS (x : Nat) (l : List Nat) : List Nat :=
  if x ∈ l then l else insertAsc x l

/-- Map lookup mirroring `BTreeMap::get` (first matching key). -/
def lookupA {α : Type} : List (Nat × α) → Nat → Option α
  | [], _ => none
  | (k, v) :: rest, key => if k = key then some v else lookupA rest key

/-- Map insertion mirroring `BTreeMap::insert`: replaces the entry when the
key is present, otherwise inserts at the ordered position. -/
def insertA {α : Type} : List (Nat × α) → Nat → α → List (Nat × α)
  | [], key, v => [(key, v)]
  | (k, w) :: rest, key, v =>
    if key < k then (key, v) :: (k, w) :: rest
    else if key = k then (key, v) :: rest
    else (k, w) :: insertA rest key v

/-- Map removal mirroring `BTreeMap::remove` (first matching key). -/
def removeA {α : Type} : List (Nat × α) → Nat → List (Nat × α)
  | [], _ => []
  | (k, w) :: rest, key => if k = key then rest else (k, w) :: removeA rest key

/-- In-place update of the entry at a key, mirroring `BTreeMap::get_mut`
followed by a mutation of the found node. -/
def updateA {α : Type} : List (Nat × α) → Nat → (α → α) → List (Nat × α)
  | [], _, _ => []
  | (k, w) :: rest, key, f =>
    if k = key then (k, f w) :: rest else (k, w) :: updateA rest key f

namespace Dag

variable {V : Type}

/-- Create a new empty DAG (`Dag::new`). -/
def new (V : Type) : Dag V := ⟨[], [], []⟩

/-- Create a DAG with a single root node (`Dag::root`). -/
def root (key : Nat) (value : V) : Dag V :=
  ⟨[(key, ⟨value, [], []⟩)], [key], [key]⟩

/-- Check whether there are any nodes in the graph (`Dag::is_empty`). -/
def isEmpty (d : Dag V) : Bool := d.graph.isEmpty

/-- Return the number of nodes in the graph (`Dag::len`). -/
def len (d : Dag V) : Nat := d.graph.length

/-- Add a node to the graph (`Dag::node`): the key is inserted into both
`tips` and `roots`, and the map entry is replaced by a node with empty edge
sets; the previous node, if any, is returned. -/
def node (d : Dag V) (key : Nat) (value : V) : Dag V × Option (Node V) :=
  (⟨insertA d.graph key ⟨value, [], []⟩, insertS key d.tips, insertS key d.roots⟩,
    lookupA d.graph key)

/-- Add a dependency from one node to the other (`Dag::dependency`): each of
the two halves applies only when its key is present. -/
def dependency (d : Dag V) (fromK toK : Nat) : Dag V :=
  let d1 :=
    match lookupA d.graph fromK with
    | some _ =>
        { d with
          graph := updateA d.graph fromK
            (fun nd => { nd with dependencies := insertS toK nd.dependencies }),
          roots := d.roots.erase fromK }
    | none => d
  match lookupA d1.graph toK with
  | some _ =>
      { d1 with
        graph := updateA d1.graph toK
          (fun nd => { nd with dependents := insertS fromK nd.dependents }),
        tips := d1.tips.erase toK }
  | none => d1

/-- Check if the graph contains a node (`Dag::contains`). -/
def contains (d : Dag V) (key : Nat) : Bool := (lookupA d.graph key).isSome

/-- Get a node (`Dag::get`). -/
def get (d : Dag V) (key : Nat) : Option (Node V) := lookupA d.graph key

/-- Check whether there is a dependency between two nodes
(`Dag::has_dependency`). -/
def hasDependency (d : Dag V) (fromK toK : Nat) : Bool :=
  match lookupA d.graph fromK with
  | some nd => decide (toK ∈ nd.dependencies)
  | none => false

/-- The graph's root nodes (`Dag::roots`): cached root keys resolved against
the map, skipping absent keys. -/
def rootsF (d : Dag V) : List (Nat × Node V) :=
  d.roots.filterMap (fun k => (lookupA d.graph k).map (fun nd => (k, nd)))

/-- The graph's tip nodes (`Dag::tips`): cached tip keys resolved against the
map, skipping absent keys. -/
def tipsF (d : Dag V) : List (Nat × Node V) :=
  d.tips.filterMap (fun k => (lookupA d.graph k).map (fun nd => (k, nd)))

/-- Keyed indexing (`impl Index for Dag`), with `none` standing for the
panic on an absent key. -/
def indexD (d : Dag V) (key : Nat) : Option (Node V) := d.get key

end Dag

/-- The keys of the node map. -/
def keysList {V : Type} (d : Dag V) : List Nat := d.graph.map Prod.fst

section SetLemmas

theorem mem_insertAsc {a x : Nat} : ∀ {l : List Nat},
    a ∈ insertAsc x l ↔ a = x ∨ a ∈ l := by
  intro l
  induction l with
  | nil => simp [insertAsc]
  | cons y ys ih =>
    by_cases h : x ≤ y
    · simp [insertAsc, h]
    · simp only [insertAsc, if_neg h, List.mem_cons, ih]
      tauto

theorem mem_insertS {a x : Nat} {l : List Nat} :
    a ∈ insertS x l ↔ a = x ∨ a ∈ l := by
  by_cases h : x ∈ l
  · simp only [insertS, if_pos h]
    constructor
    · exact fun ha => Or.inr ha
    · rintro (rfl | ha)
      · exact h
      · exact ha
  · simp [insertS, if_neg h, mem_insertAsc]

theorem subset_insertS {x : Nat} {l : List Nat} : l ⊆ insertS x l :=
  fun _ ha => mem_insertS.mpr (Or.inr ha)

theorem mem_insertS_self {x : Nat} {l : List Nat} : x ∈ insertS x l :=
  mem_insertS.mpr (Or.inl rfl)

theorem insertS_of_mem {x : Nat} {l : List Nat} (h : x ∈ l) :
    insertS x l = l := by
  simp [insertS, if_pos h]

end SetLemmas

section MapLemmas

variable {α : Type}

theorem lookupA_mem_keys {l : List (Nat × α)} {key : Nat} {v : α}
    (h : lookupA l key = some v) : key ∈ l.map Prod.fst := by
  induction l with
  | nil => simp [lookupA] at h
  | cons p rest ih =>
    obtain ⟨k, w⟩ := p
    by_cases hk : k = key
    · subst hk; simp
    · simp only [lookupA, if_neg hk] at h
      simp [ih h]

theorem lookupA_entry_mem {l : List (Nat × α)} {key : Nat} {v : α}
    (h : lookupA l key = some v) : (key, v) ∈ l := by
  induction l with
  | nil => simp [lookupA] at h
  | cons p rest ih =>
    obtain ⟨k, w⟩ := p
    by_cases hk : k = key
    · subst hk
      rw [lookupA, if_pos rfl, Option.some_inj] at h
      subst h; simp
    · simp only [lookupA, if_neg hk] at h
      simp [ih h]

theorem lookupA_isSome_of_mem_keys {l : List (Nat × α)} {key : Nat}
    (h : key ∈ l.map Prod.fst) : (lookupA l key).isSome := by
  induction l with
  | nil => simp at h
  | cons p rest ih =>
    obtain ⟨k, w⟩ := p
    by_cases hk : k = key
    · simp [lookupA, hk]
    · simp only [List.map_cons, List.mem_cons] at h
      rcases h with h | h


      · exact absurd h.symm hk
      · simp [lookupA, if_neg hk, ih h]

end MapLemmas

section Measures

variable {V : Type}

/-- Number of graph keys not yet visited; termination measure for the
traversals. -/
def keyMeasure (d : Dag V) (visited : List Nat) : Nat :=
  ((keysList d).toFinset \ visited.toFinset).card

theorem toFinset_insertS {x : Nat} {l : List Nat} :
    (insertS x l).toFinset = insert x l.toFinset := by
  ext a
  simp [mem_insertS]

theorem keyMeasure_le {d : Dag V} {v w : List Nat} (h : v ⊆ w) :
    keyMeasure d w ≤ keyMeasure d v := by
  apply Finset.card_le_card
  apply Finset.sdiff_subset_sdiff (le_refl _)
  intro a ha
  rw [List.mem_toFinset] at *
  exact h ha

theorem keyMeasure_lt {d : Dag V} {key : Nat} {v : List Nat}
    (hk : key ∈ keysList d) (hv : key ∉ v) :
    keyMeasure d (insertS key v) < keyMeasure d v := by
  unfold keyMeasure
  rw [toFinset_insertS, Finset.sdiff_insert]
  apply Finset.card_erase_lt_of_mem
  rw [Finset.mem_sdiff, List.mem_toFinset, List.mem_toFinset]
  exact ⟨hk, hv⟩

theorem keyMeasure_le_insertS {d : Dag V} {key : Nat} {v : List Nat} :
    keyMeasure d (insertS key v) ≤ keyMeasure d v :=
  keyMeasure_le subset_insertS

theorem subset_foldl_insertS {l : List Nat} :
    ∀ {v : List Nat}, v ⊆ l.foldl (fun vs k => insertS k vs) v := by
  induction l with
  | nil => intro v; exact List.Subset.refl _
  | cons x xs ih =>
    intro v
    exact List.Subset.trans subset_insertS ih

theorem removeA_length_lt {α : Type} {l : List (Nat × α)} {key : Nat} {v : α}
    (h : lookupA l key = some v) : (removeA l key).length < l.length := by
  induction l with
  | nil => simp [lookupA] at h
  | cons p rest ih =>
    obtain ⟨k, w⟩ := p
    by_cases hk : k = key
    · simp [removeA, hk]
    · simp only [lookupA, if_neg hk] at h
      simpa [removeA, hk] using ih h

end Measures

section Traversal

variable {V : Type}

mutual

/-- Add nodes recursively to the topological order, starting from the given
node (`Dag::visit`): skip visited keys, otherwise mark visited, recurse into
the node's dependencies (when the node exists) and then append the key. The
result carries the fact that the visited set only grows. -/
def visitP (d : Dag V) (key : Nat) (visited order : List Nat) :
    { p : List Nat × List Nat // visited ⊆ p.1 } :=
  if hv : key ∈ visited then ⟨(visited, order), List.Subset.refl _⟩
  else
    match hl : lookupA d.graph key with
    | none => ⟨(insertS key visited, order ++ [key]), subset_insertS⟩
    | some nd =>
        let r := visitListP d nd.dependencies (insertS key visited) order
        ⟨(r.val.1, r.val.2 ++ [key]), List.Subset.trans subset_insertS r.property⟩
termination_by (keyMeasure d visited, 0)
decreasing_by
  apply Prod.Lex.left
  exact keyMeasure_lt (lookupA_mem_keys hl) hv

/-- Visit each key of a dependency list in turn, threading the visited set
and the order. -/
def visitListP (d : Dag V) (ks : List Nat) (visited order : List Nat) :
    { p : List Nat × List Nat // visited ⊆ p.1 } :=
  match ks with
  | [] => ⟨(visited, order), List.Subset.refl _⟩
  | k :: rest =>
      let r1 := visitP d k visited order
      let r2 := visitListP d rest r1.val.1 r1.val.2
      ⟨r2.val, List.Subset.trans r1.property r2.property⟩
termination_by (keyMeasure d visited, ks.length + 1)
decreasing_by
  · apply Prod.Lex.right
    simp only [List.length_cons]
    omega
  · rcases lt_or_eq_of_le (keyMeasure_le r1.property) with h | h
    · exact Prod.Lex.left _ _ h
    · rw [h]
      apply Prod.Lex.right
      simp only [List.length_cons]
      omega

end

/-- Stable ordered insertion for an arbitrary comparison function: the
element is placed before the first entry it does not compare greater than,
so the head of the unsorted list ends up before comparator-equal elements
of the tail, giving the stability of `slice::sort_by`. -/
def insOrd (cmp : Nat → Nat → Ordering) (x : Nat) : List Nat → List Nat
  | [] => [x]
  | y :: ys =>
    match cmp x y with
    | Ordering.gt => y :: insOrd cmp x ys
    | _ => x :: y :: ys

/-- Sort a key list by a comparison function (`keys.sort_by(compare)`). -/
def sortCmp (cmp : Nat → Nat → Ordering) : List Nat → List Nat
  | [] => []
  | x :: xs => insOrd cmp x (sortCmp cmp xs)

/-- Return a topological ordering of the graph's nodes (`Dag::sorted`): sort
the keys by the comparison function, then visit each in turn. -/
def Dag.sorted (d : Dag V) (cmp : Nat → Nat → Ordering) : List Nat :=
  (List.foldl (fun st k => (visitP d k st.1 st.2).val)
    (([] : List Nat), ([] : List Nat)) (sortCmp cmp (keysList d))).2

/-- Collect the transitive dependents of a node (`Dag::descendants_of`):
breadth-first over the dependents relation, recording present keys. -/
def descAux (d : Dag V) (visited stack nodes : List Nat) : List Nat :=
  match stack with
  | [] => nodes
  | key :: rest =>
    match hl : lookupA d.graph key with
    | none => descAux d visited rest nodes
    | some nd =>
      if hv : key ∈ visited then descAux d visited rest nodes
      else descAux d (insertS key visited) (rest ++ nd.dependents) (nodes ++ [key])
termination_by (keyMeasure d visited, stack.length)
decreasing_by
  · apply Prod.Lex.right
    simp only [List.length_cons]
    omega
  · apply Prod.Lex.right
    simp only [List.length_cons]
    omega
  · apply Prod.Lex.left
    exact keyMeasure_lt (lookupA_mem_keys hl) hv

/-- Transitive dependents of a node (`Dag::descendants_of`). -/
def Dag.descendantsOf (d : Dag V) (nd : Node V) : List Nat :=
  descAux d [] nd.dependents []

/-- Control-flow result of the fold filter (`std::ops::ControlFlow`). -/
inductive Flow (A : Type) where
  | cont (a : A)
  | brk (a : A)

/-- Fold over the graph in topological order, pruning branches along the way
(`Dag::fold`), instrumented with the list of (key, was-break) filter
invocations in call order. -/
def foldTr {A : Type} (d : Dag V) (filter : A → Nat → Node V → Nat → Flow A)
    (visited : List Nat) (queue : List (Nat × Nat)) (acc : A) :
    A × List (Nat × Bool) :=
  match queue with
  | [] => (acc, [])
  | (next, depth) :: rest =>
    if hv : next ∈ visited then foldTr d filter visited rest acc
    else
      match hl : lookupA d.graph next with
      | none => foldTr d filter (insertS next visited) rest acc
      | some nd =>
        match filter acc next nd depth with
        | Flow.cont a =>
          let r := foldTr d filter (insertS next visited)
            (rest ++ nd.dependents.map (fun k => (k, depth + 1))) a
          (r.1, (next, false) :: r.2)
        | Flow.brk a =>
          let r := foldTr d filter
            ((d.descendantsOf nd).foldl (fun vs k => insertS k vs)
              (insertS next visited)) rest a
          (r.1, (next, true) :: r.2)
termination_by (keyMeasure d visited, queue.length)
decreasing_by
  · apply Prod.Lex.right
    simp only [List.length_cons]
    omega
  · rcases lt_or_eq_of_le (@keyMeasure_le_insertS _ d next visited) with h | h
    · exact Prod.Lex.left _ _ h
    · rw [h]
      apply Prod.Lex.right
      simp only [List.length_cons]
      omega
  · apply Prod.Lex.left
    exact keyMeasure_lt (lookupA_mem_keys hl) hv
  · apply Prod.Lex.left
    calc keyMeasure d ((d.descendantsOf nd).foldl (fun vs k => insertS k vs)
          (insertS next visited))
        ≤ keyMeasure d (insertS next visited) := keyMeasure_le subset_foldl_insertS
      _ < keyMeasure d visited := keyMeasure_lt (lookupA_mem_keys hl) hv

/-- Fold over the graph in topological order (`Dag::fold`): the accumulator
component of the instrumented traversal. -/
def Dag.fold {A : Type} (d : Dag V) (rootK : Nat) (init : A)
    (filter : A → Nat → Node V → Nat → Flow A) : A :=
  (foldTr d filter [] [(rootK, 0)] init).1

/-- Merge a DAG into this one (`Dag::merge`), traversal worker: pop a key,
skip it if visited, otherwise take its node out of `other`, insert it into
`self` when absent, re-issue all of its edges and enqueue its dependents. -/
def mergeAux (s other : Dag V) (visited queue : List Nat) : Dag V :=
  match queue with
  | [] => s
  | next :: rest =>
    if hv : next ∈ visited then mergeAux s other visited rest
    else
      match hl : lookupA other.graph next with
      | none => mergeAux s other (insertS next visited) rest
      | some nd =>
        let other' : Dag V := { other with graph := removeA other.graph next }
        let s1 := if s.contains next then s else (s.node next nd.value).1
        let s2 := nd.dependents.foldl (fun t k => t.dependency k next) s1
        let s3 := nd.dependencies.foldl (fun t k => t.dependency next k) s2
        mergeAux s3 other' (insertS next visited) (rest ++ nd.dependents)
termination_by (other.graph.length, queue.length)
decreasing_by
  · apply Prod.Lex.right
    simp only [List.length_cons]
    omega
  · apply Prod.Lex.right
    simp only [List.length_cons]
    omega
  · apply Prod.Lex.left
    exact removeA_length_lt hl

/-- Merge a DAG into this one (`Dag::merge`): start from the first root of
`other` that resolves to a node; an `other` with no such root is a no-op. -/
def Dag.merge (s other : Dag V) : Dag V :=
  match other.rootsF.head? with
  | none => s
  | some (r, _) => mergeAux s other [] [r]

/-- Keys processed by the merge traversal, with the node each was processed
with; pure observation of the `mergeAux` control flow, which never depends
on `self`. -/
def procAux (other : Dag V) (visited queue : List Nat) : List (Nat × Node V) :=
  match queue with
  | [] => []
  | next :: rest =>
    if hv : next ∈ visited then procAux other visited rest
    else
      match hl : lookupA other.graph next with
      | none => procAux other (insertS next visited) rest
      | some nd =>
        (next, nd) ::
          procAux { other with graph := removeA other.graph next }
            (insertS next visited) (rest ++ nd.dependents)
termination_by (other.graph.length, queue.length)
decreasing_by
  · apply Prod.Lex.right
    simp only [List.length_cons]
    omega
  · apply Prod.Lex.right
    simp only [List.length_cons]
    omega
  · apply Prod.Lex.left
    exact removeA_length_lt hl

/-- The keys the merge of `other` into any graph would process. -/
def procKeys (other : Dag V) : List Nat :=
  match other.rootsF.head? with
  | none => []
  | some (r, _) => (procAux other [] [r]).map Prod.fst

end Traversal

section HistoryDefs

/-- Modelled from the spec: the `Entry` record of the causal-history layer
(its source file `radicle-cob/src/history/entry.rs` is not among the given
sources). Fields follow the spec: id, actor public key, resource content id,
raw byte contents, timestamp and logical clock; identifiers and keys are
modelled as `Nat` and contents as a byte list. -/
structure Entry where
  id : Nat
  actor : Nat
  resource : Nat
  contents : List Nat
  timestamp : Nat
  clock : Nat
deriving DecidableEq, Repr

/-- Modelled from the spec: `Entry::new` packs the given fields into an
entry record. -/
def Entry.new (id actor resource : Nat) (contents : List Nat)
    (timestamp clock : Nat) : Entry :=
  ⟨id, actor, resource, contents, timestamp, clock⟩

/-- The DAG of changes making up the history of a collaborative object
(`History` in `radicle-cob/src/history.rs`). -/
structure History where
  graph : Dag Entry
  root : Nat
deriving DecidableEq

/-- Create a new history from a DAG (`History::new`); `none` models the
panic when the root is not part of the graph. -/
def History.new (rootK : Nat) (graph : Dag Entry) : Option History :=
  if graph.contains rootK then some ⟨graph, rootK⟩ else none

/-- Build a single-node history (`History::new_from_root`): the root entry's
logical clock is 1. -/
def History.newFromRoot (id actor resource : Nat) (contents : List Nat)
    (timestamp : Nat) : History :=
  ⟨Dag.root id (Entry.new id actor resource contents timestamp 1), id⟩

/-- Current value of the logical clock (`History::clock`): the maximum clock
of all tips, or the default 0 when there is none. -/
def History.clock (h : History) : Nat :=
  (h.graph.tipsF.map (fun p => p.2.value.clock)).foldr max 0

/-- All the tips of the graph as a set of entry ids (`History::tips`). -/
def History.tips (h : History) : List Nat :=
  (h.graph.tipsF.map (fun p => p.2.value.id)).foldl (fun acc x => insertS x acc) []

/-- Append one new entry (`History::extend`): capture the current tips,
create an entry with clock `self.clock() + 1`, insert it as a node, then add
a dependency from the new entry to every captured tip. -/
def History.extend (h : History) (newId actor resource : Nat)
    (contents : List Nat) (timestamp : Nat) : History :=
  let tips0 := h.tips
  let e := Entry.new newId actor resource contents timestamp (h.clock + 1)
  let g1 := (h.graph.node newId e).1
  let g2 := tips0.foldl (fun g tip => g.dependency newId tip) g1
  { h with graph := g2 }

/-- Merge a remote history (`History::merge`). -/
def History.merge (h other : History) : History :=
  { h with graph := h.graph.merge other.graph }

end HistoryDefs

section MoreMapLemmas

variable {α : Type}

theorem lookupA_insertA_self {l : List (Nat × α)} {key : Nat} {v : α} :
    lookupA (insertA l key v) key = some v := by
  induction l with
  | nil => simp [insertA, lookupA]
  | cons p rest ih =>
    obtain ⟨k, w⟩ := p
    rcases Nat.lt_trichotomy key k with h | h | h
    · simp [insertA, lookupA, h]
    · simp [insertA, lookupA, h, Nat.lt_irrefl]
    · have h1 : ¬ key < k := by omega
      have h2 : key ≠ k := by omega
      have h3 : k ≠ key := by omega
      simp [insertA, lookupA, h1, h2, h3, ih]

theorem lookupA_insertA_ne {l : List (Nat × α)} {key j : Nat} {v : α}
    (hj : j ≠ key) : lookupA (insertA l key v) j = lookupA l j := by
  have hj' : key ≠ j := fun h => hj h.symm
  induction l with
  | nil => simp [insertA, lookupA, hj']
  | cons p rest ih =>
    obtain ⟨k, w⟩ := p
    rcases Nat.lt_trichotomy key k with h | h | h
    · simp [insertA, lookupA, h, hj']
    · subst h
      simp [insertA, lookupA, Nat.lt_irrefl, hj']
    · have h1 : ¬ key < k := by omega
      have h2 : key ≠ k := by omega
      by_cases hk : k = j
      · subst hk
        have h3 : ¬ key < k := h1
        simp [insertA, lookupA, h1, h2, h3]
      · simp [insertA, lookupA, h1, h2, hk, ih]

theorem lookupA_updateA_self {l : List (Nat × α)} {key : Nat} {f : α → α} :
    lookupA (updateA l key f) key = (lookupA l key).map f := by
  induction l with
  | nil => simp [updateA, lookupA]
  | cons p rest ih =>
    obtain ⟨k, w⟩ := p
    by_cases hk : k = key
    · simp [updateA, lookupA, hk]
    · simp [updateA, lookupA, hk, ih]

theorem lookupA_updateA_ne {l : List (Nat × α)} {key j : Nat} {f : α → α}
    (hj : j ≠ key) : lookupA (updateA l key f) j = lookupA l j := by
  have hj' : key ≠ j := fun h => hj h.symm
  induction l with
  | nil => simp [updateA, lookupA]
  | cons p rest ih =>
    obtain ⟨k, w⟩ := p
    by_cases hk : k = key
    · subst hk
      simp [updateA, lookupA, hj']
    · by_cases hkj : k = j
      · simp [updateA, lookupA, hk, hkj, hj]
      · simp [updateA, lookupA, hk, hkj, ih]

end MoreMapLemmas

/-! ## Claim C6: behaviour of `Dag::node` -/

/-- Example graph for the C6 counterexample: nodes 0 and 1 with a recorded
dependency of 1 on 0, and node values in `Nat`. -/
def dagC6 : Dag Nat :=
  ((((Dag.new Nat).node 0 7).1.node 1 8).1).dependency 1 0

/-- Claim C6 is false as stated: key 1 is present with dependencies `[0]`,
but re-inserting it via `node` does not leave its prior dependency set
intact — the stored node comes back with an empty dependency set. -/
theorem claim_C6_counterexample :
    dagC6.get 1 = some ⟨8, [0], []⟩ ∧
      (dagC6.node 1 9).1.get 1 = some ⟨9, [], []⟩ ∧
      (some (⟨9, [], []⟩ : Node Nat) ≠ some (⟨9, [0], []⟩ : Node Nat)) := by
  refine ⟨by decide, by decide, by decide⟩

/-- Claim C6 as amended: `node(k, v)` always stores a fresh node with value
`v` and empty edge sets (discarding any prior edges of `k`), returns the
previous node when `k` was present and `none` otherwise, leaves every other
key's node unchanged, and adds `k` to both the tips and the roots sets. -/
theorem claim_C6 {V : Type} (d : Dag V) (k : Nat) (v : V) :
    (d.node k v).2 = d.get k ∧
    (d.node k v).1.get k = some ⟨v, [], []⟩ ∧
    (∀ j, j ≠ k → (d.node k v).1.get j = d.get j) ∧
    (∀ j, j ∈ (d.node k v).1.tips ↔ j = k ∨ j ∈ d.tips) ∧
    (∀ j, j ∈ (d.node k v).1.roots ↔ j = k ∨ j ∈ d.roots) := by
  refine ⟨rfl, ?_, ?_, ?_, ?_⟩
  · exact lookupA_insertA_self
  · intro j hj
    exact lookupA_insertA_ne hj
  · intro j
    exact mem_insertS
  · intro j
    exact mem_insertS

/-- Witness instantiating `claim_C6` at a concrete graph, key and value. -/
theorem claim_C6_witness :
    (dagC6.node 1 9).2 = dagC6.get 1 ∧ (dagC6.node 1 9).1.get 5 = dagC6.get 5 := by
  refine ⟨(claim_C6 dagC6 1 9).1, (claim_C6 dagC6 1 9).2.2.1 5 (by decide)⟩

/-! ## Claim C7: `Dag::dependency` with an absent endpoint -/

/-- Example graph for the C7 counterexample: a single node 0. -/
def dagC7 : Dag Nat := ((Dag.new Nat).node 0 7).1

/-- Claim C7 is false as stated: with `from = 1` absent and `to = 0` present,
`dependency(1, 0)` is not a no-op — node 0 gains dependent 1 and loses its
tip status. -/
theorem claim_C7_counterexample :
    dagC7.contains 1 = false ∧ dagC7.contains 0 = true ∧
      dagC7.dependency 1 0 ≠ dagC7 := by
  refine ⟨by decide, by decide, by decide⟩

/-- Claim C7 as amended: when both keys are absent, `dependency(from, to)`
is a silent no-op leaving the entire DAG unchanged (when exactly one key is
present, the present key's half-update still applies). -/
theorem claim_C7 {V : Type} (d : Dag V) (fromK toK : Nat)
    (hf : d.contains fromK = false) (ht : d.contains toK = false) :
    d.dependency fromK toK = d := by
  have hf' : lookupA d.graph fromK = none := by
    simpa [Dag.contains, Option.isSome_iff_exists] using hf
  have ht' : lookupA d.graph toK = none := by
    simpa [Dag.contains, Option.isSome_iff_exists] using ht
  simp [Dag.dependency, hf', ht']

/-- Witness instantiating `claim_C7` at a concrete graph and absent keys. -/
theorem claim_C7_witness : dagC7.dependency 3 4 = dagC7 :=
  claim_C7 dagC7 3 4 (by decide) (by decide)

/-! ## Claim C9: fatal-by-design indexing and `History::new` -/

/-- Claim C9: keyed indexing fails (modelled by `none`, standing for the
panic) exactly when the key is absent, returning the stored node otherwise;
and `History::new` fails (modelled by `none`, standing for the assertion)
exactly when the root is not contained in the graph, otherwise wrapping the
given root and graph unchanged. -/
theorem claim_C9 {V : Type} (d : Dag V) (k : Nat) (r : Nat) (g : Dag Entry) :
    ((d.indexD k = none) ↔ d.contains k = false) ∧
    (d.contains k = true → d.indexD k = d.get k) ∧
    ((History.new r g = none) ↔ g.contains r = false) ∧
    (∀ h, History.new r g = some h → h.root = r ∧ h.graph = g) := by
  refine ⟨?_, fun _ => rfl, ?_, ?_⟩
  · simp [Dag.indexD, Dag.get, Dag.contains, Option.isSome_iff_exists]
  · unfold History.new
    by_cases hc : g.contains r
    · simp [hc]
    · simp [hc, Bool.eq_false_iff.mpr hc]
  · intro h hh
    unfold History.new at hh
    by_cases hc : g.contains r
    · simp [hc] at hh
      subst hh
      exact ⟨rfl, rfl⟩
    · simp [hc] at hh

/-- Witness instantiating `claim_C9` at a concrete graph, key and history. -/
theorem claim_C9_witness :
    ((dagC7.indexD 3 = none) ↔ dagC7.contains 3 = false) ∧
      dagC7.indexD 0 = dagC7.get 0 := by
  refine ⟨(claim_C9 dagC7 3 0 (Dag.new Entry)).1, ?_⟩
  exact (claim_C9 dagC7 0 0 (Dag.new Entry)).2.1 (by decide)

/-! ## Claim C8: the History clock scenario -/

/-- Claim C8: starting from `new_from_root` the clock is 1; one `extend`
with a fresh id gives clock 2 and tips containing exactly the new entry; a
second `extend` with another fresh id gives clock 3 and again a single tip;
each extend's entry has clock = previous clock + 1 and depends on every
previous tip. -/
theorem claim_C8 (id0 id1 id2 a0 a1 a2 r0 r1 r2 t0 t1 t2 : Nat)
    (c0 c1 c2 : List Nat)
    (h10 : id1 ≠ id0) (h20 : id2 ≠ id0) (h21 : id2 ≠ id1) :
    (History.newFromRoot id0 a0 r0 c0 t0).clock = 1 ∧
    ((History.newFromRoot id0 a0 r0 c0 t0).extend id1 a1 r1 c1 t1).clock = 2 ∧
    ((History.newFromRoot id0 a0 r0 c0 t0).extend id1 a1 r1 c1 t1).tips = [id1] ∧
    (((History.newFromRoot id0 a0 r0 c0 t0).extend id1 a1 r1 c1 t1).extend
      id2 a2 r2 c2 t2).clock = 3 ∧
    (((History.newFromRoot id0 a0 r0 c0 t0).extend id1 a1 r1 c1 t1).extend
      id2 a2 r2 c2 t2).tips = [id2] ∧
    ((History.newFromRoot id0 a0 r0 c0 t0).extend
      id1 a1 r1 c1 t1).graph.hasDependency id1 id0 = true ∧
    (((History.newFromRoot id0 a0 r0 c0 t0).extend id1 a1 r1 c1 t1).extend
      id2 a2 r2 c2 t2).graph.hasDependency id2 id1 = true := by
  have h01 : id0 ≠ id1 := Ne.symm h10
  have h02 : id0 ≠ id2 := Ne.symm h20
  have h12 : id1 ≠ id2 := Ne.symm h21
  by_cases hlt1 : id1 < id0 <;> by_cases hlt2 : id2 < id0 <;> by_cases hlt3 : id2 < id1 <;>
    ((first
      | have hle1 : id1 ≤ id0 := by omega
      | have hle1 : ¬ id1 ≤ id0 := by omega) <;>
     (first
      | have hle2 : id2 ≤ id0 := by omega
      | have hle2 : ¬ id2 ≤ id0 := by omega) <;>
     (first
      | have hle3 : id2 ≤ id1 := by omega
      | have hle3 : ¬ id2 ≤ id1 := by omega) <;>
     simp [History.newFromRoot, History.extend, History.clock, History.tips,
       Dag.root, Dag.node, Dag.dependency, Dag.tipsF, Dag.hasDependency, Entry.new,
       insertA, insertS, insertAsc, lookupA, updateA,
       hlt1, hlt2, hlt3, hle1, hle2, hle3, h10, h20, h21, h01, h02, h12,
       List.erase_cons])

/-- Witness instantiating `claim_C8` at concrete distinct entry ids. -/
theorem claim_C8_witness :
    ((History.newFromRoot 0 0 0 [] 0).extend 1 0 0 [] 0).clock = 2 ∧
      ((History.newFromRoot 0 0 0 [] 0).extend 1 0 0 [] 0).tips = [1] :=
  ⟨(claim_C8 0 1 2 0 0 0 0 0 0 0 0 0 [] [] [] (by decide) (by decide) (by decide)).2.1,
   (claim_C8 0 1 2 0 0 0 0 0 0 0 0 0 [] [] [] (by decide) (by decide) (by decide)).2.2.1⟩

/-! ## Claim C3: the tips/roots cache invariant -/

theorem insertAsc_ne_nil {x : Nat} {l : List Nat} : insertAsc x l ≠ [] := by
  cases l with
  | nil => simp [insertAsc]
  | cons y ys => by_cases h : x ≤ y <;> simp [insertAsc, h]

theorem insertS_ne_nil {x : Nat} {l : List Nat} : insertS x l ≠ [] := by
  by_cases h : x ∈ l
  · rw [insertS_of_mem h]
    intro hnil
    rw [hnil] at h
    simp at h
  · simp [insertS, h, insertAsc_ne_nil]

theorem insertAsc_nodup {x : Nat} {l : List Nat} (hx : x ∉ l) (h : l.Nodup) :
    (insertAsc x l).Nodup := by
  induction l with
  | nil => simp [insertAsc]
  | cons y ys ih =>
    simp only [List.mem_cons, not_or] at hx
    simp only [List.nodup_cons] at h
    by_cases hle : x ≤ y
    · simp only [insertAsc, if_pos hle, List.nodup_cons, List.mem_cons, not_or]
      exact ⟨⟨hx.1, hx.2⟩, h.1, h.2⟩
    · simp only [insertAsc, if_neg hle, List.nodup_cons]
      refine ⟨?_, ih hx.2 h.2⟩
      rw [mem_insertAsc]
      rintro (hyx | hy)
      · exact hx.1 hyx.symm
      · exact h.1 hy

theorem insertS_nodup {x : Nat} {l : List Nat} (h : l.Nodup) :
    (insertS x l).Nodup := by
  by_cases hx : x ∈ l
  · rw [insertS_of_mem hx]; exact h
  · simp only [insertS, if_neg hx]
    exact insertAsc_nodup hx h

/-- The claimed cache invariant: `tips` is exactly the set of present keys
with an empty dependents set, and `roots` exactly those with an empty
dependencies set. -/
def InvTR {V : Type} (d : Dag V) : Prop :=
  (∀ k, k ∈ d.tips ↔ ∃ nd, d.get k = some nd ∧ nd.dependents = ([] : List Nat)) ∧
  (∀ k, k ∈ d.roots ↔ ∃ nd, d.get k = some nd ∧ nd.dependencies = ([] : List Nat))

/-- The cache invariant together with well-formedness of the cached lists. -/
def CacheWF {V : Type} (d : Dag V) : Prop :=
  d.tips.Nodup ∧ d.roots.Nodup ∧ InvTR d

theorem cacheWF_new {V : Type} : CacheWF (Dag.new V) := by
  refine ⟨List.nodup_nil, List.nodup_nil, ?_, ?_⟩ <;>
    intro k <;> simp [Dag.new, Dag.get, lookupA]

theorem cacheWF_node {V : Type} {d : Dag V} (h : CacheWF d) (k : Nat) (v : V) :
    CacheWF ((d.node k v).1) := by
  obtain ⟨hT, hR, hIT, hIR⟩ := h
  refine ⟨insertS_nodup hT, insertS_nodup hR, ?_, ?_⟩
  · intro j
    rw [show ((d.node k v).1).tips = insertS k d.tips from rfl, mem_insertS]
    by_cases hj : j = k
    · subst hj
      simp [Dag.node, Dag.get, lookupA_insertA_self]
    · rw [show ((d.node k v).1).get j = d.get j from lookupA_insertA_ne hj]
      simp only [hj, false_or]
      exact hIT j
  · intro j
    rw [show ((d.node k v).1).roots = insertS k d.roots from rfl, mem_insertS]
    by_cases hj : j = k
    · subst hj
      simp [Dag.node, Dag.get, lookupA_insertA_self]
    · rw [show ((d.node k v).1).get j = d.get j from lookupA_insertA_ne hj]
      simp only [hj, false_or]
      exact hIR j

theorem cacheWF_dep_fromHalf {V : Type} {d : Dag V} (h : CacheWF d)
    {f : Nat} (t : Nat) {nd0 : Node V} (hf : lookupA d.graph f = some nd0) :
    CacheWF
      ⟨updateA d.graph f (fun nd => { nd with dependencies := insertS t nd.dependencies }),
        d.tips, d.roots.erase f⟩ := by
  obtain ⟨hT, hR, hIT, hIR⟩ := h
  refine ⟨hT, hR.erase f, ?_, ?_⟩
  · intro j
    by_cases hj : j = f
    · subst hj
      simp only [Dag.get, lookupA_updateA_self, hf, Option.map_some]
      constructor
      · intro hmem
        obtain ⟨nd, hnd, hdeps⟩ := (hIT j).mp hmem
        rw [Dag.get, hf] at hnd
        cases hnd
        exact ⟨_, rfl, hdeps⟩
      · rintro ⟨nd, hnd, hdeps⟩
        cases hnd
        exact (hIT j).mpr ⟨nd0, by rw [Dag.get, hf], hdeps⟩
    · rw [show (⟨updateA d.graph f
          (fun nd => { nd with dependencies := insertS t nd.dependencies }),
          d.tips, d.roots.erase f⟩ : Dag V).get j = d.get j from lookupA_updateA_ne hj]
      exact hIT j
  · intro j
    by_cases hj : j = f
    · subst hj
      rw [show (⟨updateA d.graph j
          (fun nd => { nd with dependencies := insertS t nd.dependencies }),
          d.tips, d.roots.erase j⟩ : Dag V).roots = d.roots.erase j from rfl]
      constructor
      · intro hmem
        exact absurd ((hR.mem_erase_iff).mp hmem).1 (by simp)
      · rintro ⟨nd, hnd, hdeps⟩
        rw [Dag.get] at hnd
        rw [lookupA_updateA_self, hf] at hnd
        cases hnd
        exact absurd hdeps insertS_ne_nil
    · rw [show (⟨updateA d.graph f
          (fun nd => { nd with dependencies := insertS t nd.dependencies }),
          d.tips, d.roots.erase f⟩ : Dag V).get j = d.get j from lookupA_updateA_ne hj,
        show (⟨updateA d.graph f
          (fun nd => { nd with dependencies := insertS t nd.dependencies }),
          d.tips, d.roots.erase f⟩ : Dag V).roots = d.roots.erase f from rfl,
        List.mem_erase_of_ne hj]
      exact hIR j

theorem cacheWF_dep_toHalf {V : Type} {d : Dag V} (h : CacheWF d)
    (f : Nat) {t : Nat} {nd0 : Node V} (ht : lookupA d.graph t = some nd0) :
    CacheWF
      ⟨updateA d.graph t (fun nd => { nd with dependents := insertS f nd.dependents }),
        d.tips.erase t, d.roots⟩ := by
  obtain ⟨hT, hR, hIT, hIR⟩ := h
  refine ⟨hT.erase t, hR, ?_, ?_⟩
  · intro j
    by_cases hj : j = t
    · subst hj
      constructor
      · intro hmem
        exact absurd ((hT.mem_erase_iff).mp hmem).1 (by simp)
      · rintro ⟨nd, hnd, hdeps⟩
        rw [Dag.get] at hnd
        rw [lookupA_updateA_self, ht] at hnd
        cases hnd
        exact absurd hdeps insertS_ne_nil
    · rw [show (⟨updateA d.graph t
          (fun nd => { nd with dependents := insertS f nd.dependents }),
          d.tips.erase t, d.roots⟩ : Dag V).get j = d.get j from lookupA_updateA_ne hj,
        show (⟨updateA d.graph t
          (fun nd => { nd with dependents := insertS f nd.dependents }),
          d.tips.erase t, d.roots⟩ : Dag V).tips = d.tips.erase t from rfl,
        List.mem_erase_of_ne hj]
      exact hIT j
  · intro j
    by_cases hj : j = t
    · subst hj
      simp only [Dag.get, lookupA_updateA_self, ht, Option.map_some]
      constructor
      · intro hmem
        obtain ⟨nd, hnd, hdeps⟩ := (hIR j).mp hmem
        rw [Dag.get, ht] at hnd
        cases hnd
        exact ⟨_, rfl, hdeps⟩
      · rintro ⟨nd, hnd, hdeps⟩
        cases hnd
        exact (hIR j).mpr ⟨nd0, by rw [Dag.get, ht], hdeps⟩
    · rw [show (⟨updateA d.graph t
          (fun nd => { nd with dependents := insertS f nd.dependents }),
          d.tips.erase t, d.roots⟩ : Dag V).get j = d.get j from lookupA_updateA_ne hj]
      exact hIR j

theorem cacheWF_dependency {V : Type} {d : Dag V} (h : CacheWF d) (f t : Nat) :
    CacheWF (d.dependency f t) := by
  unfold Dag.dependency
  cases hf : lookupA d.graph f with
  | none =>
    simp only [hf]
    cases ht : lookupA d.graph t with
    | none => simpa [ht] using h
    | some nd0 =>
      simp only [ht]
      exact cacheWF_dep_toHalf h f ht
  | some nd0 =>
    simp only [hf]
    have h1 := cacheWF_dep_fromHalf h t hf
    cases ht : lookupA (updateA d.graph f
        (fun nd => { nd with dependencies := insertS t nd.dependencies })) t with
    | none => simpa [ht] using h1
    | some nd1 =>
      simp only [ht]
      exact cacheWF_dep_toHalf h1 f ht

theorem cacheWF_foldl {V : Type} {g : Dag V → Nat → Dag V}
    (hg : ∀ s k, CacheWF s → CacheWF (g s k)) :
    ∀ (l : List Nat) (s : Dag V), CacheWF s → CacheWF (l.foldl g s) := by
  intro l
  induction l with
  | nil => intro s hs; exact hs
  | cons x xs ih =>
    intro s hs
    exact ih (g s x) (hg s x hs)

theorem cacheWF_mergeAux {V : Type} :
    ∀ (s other : Dag V) (visited queue : List Nat),
      CacheWF s → CacheWF (mergeAux s other visited queue) := by
  intro s other visited queue
  induction s, other, visited, queue using mergeAux.induct with
  | case1 s other visited =>
    intro hs
    rw [mergeAux]
    exact hs
  | case2 s other visited next rest hv ih =>
    intro hs
    rw [mergeAux]
    simp only [dif_pos hv]
    exact ih hs
  | case3 s other visited next rest hv hl ih =>
    intro hs
    rw [mergeAux]
    simp only [dif_neg hv]
    split
    · exact ih hs
    · next nd2 heq =>
      rw [hl] at heq
      exact Option.noConfusion heq
  | case4 s other visited next rest hv nd hl other2 s1 s2 s3 ihm =>
    intro hs
    rw [mergeAux]
    simp only [dif_neg hv]
    split
    · next heq =>
      rw [hl] at heq
      exact Option.noConfusion heq
    · next nd2 heq =>
      rw [hl] at heq
      injection heq with heq2
      subst heq2
      apply ihm
      apply cacheWF_foldl (fun s k hs => cacheWF_dependency hs next k) _ _
      apply cacheWF_foldl (fun s k hs => cacheWF_dependency hs k next) _ _
      show CacheWF (if _ : s.contains next = true then s else (s.node next nd.value).1)
      by_cases hc : s.contains next = true
      · rw [dif_pos hc]
        exact hs
      · rw [dif_neg hc]
        exact cacheWF_node hs next nd.value

theorem cacheWF_merge {V : Type} {s : Dag V} (other : Dag V) (h : CacheWF s) :
    CacheWF (s.merge other) := by
  unfold Dag.merge
  cases hr : other.rootsF.head? with
  | none => exact h
  | some p =>
    obtain ⟨r, nd⟩ := p
    exact cacheWF_mergeAux s other [] [r] h

/-- An operation on a DAG: `node`, `dependency` or `merge`. -/
inductive DagOp (V : Type) where
  | nodeOp (k : Nat) (v : V)
  | depOp (f t : Nat)
  | mergeOp (other : Dag V)

/-- Apply one operation. -/
def applyOp {V : Type} (d : Dag V) : DagOp V → Dag V
  | DagOp.nodeOp k v => (d.node k v).1
  | DagOp.depOp f t => d.dependency f t
  | DagOp.mergeOp other => d.merge other

/-- Apply a sequence of operations. -/
def applyOps {V : Type} (d : Dag V) (ops : List (DagOp V)) : Dag V :=
  ops.foldl applyOp d

theorem cacheWF_applyOps {V : Type} {d : Dag V} (ops : List (DagOp V))
    (h : CacheWF d) : CacheWF (applyOps d ops) := by
  induction ops generalizing d with
  | nil => exact h
  | cons op rest ih =>
    have hstep : CacheWF (applyOp d op) := by
      cases op with
      | nodeOp k v => exact cacheWF_node h k v
      | depOp f t => exact cacheWF_dependency h f t
      | mergeOp other => exact cacheWF_merge other h
    exact ih hstep

/-- Claim C3: after every sequence of `node`, `dependency` and `merge`
operations on a DAG whose caches are well formed (in particular after any
sequence applied to the empty DAG), the cached tips are exactly the present
keys with an empty dependents set and the cached roots exactly the present
keys with an empty dependencies set. -/
theorem claim_C3 {V : Type} (d : Dag V) (ops : List (DagOp V)) (h : CacheWF d) :
    (∀ k, k ∈ (applyOps d ops).tips ↔
      ∃ nd, (applyOps d ops).get k = some nd ∧ nd.dependents = ([] : List Nat)) ∧
    (∀ k, k ∈ (applyOps d ops).roots ↔
      ∃ nd, (applyOps d ops).get k = some nd ∧ nd.dependencies = ([] : List Nat)) :=
  (cacheWF_applyOps ops h).2.2

/-- Witness instantiating `claim_C3` on a concrete operation sequence
applied to the empty DAG, including a merge. -/
theorem claim_C3_witness :
    (∀ k, k ∈ (applyOps (Dag.new Unit)
        [DagOp.nodeOp 0 (), DagOp.nodeOp 1 (), DagOp.depOp 1 0,
          DagOp.mergeOp (Dag.root 5 ())]).tips ↔
      ∃ nd, (applyOps (Dag.new Unit)
        [DagOp.nodeOp 0 (), DagOp.nodeOp 1 (), DagOp.depOp 1 0,
          DagOp.mergeOp (Dag.root 5 ())]).get k = some nd ∧
        nd.dependents = ([] : List Nat)) ∧
    (∀ k, k ∈ (applyOps (Dag.new Unit)
        [DagOp.nodeOp 0 (), DagOp.nodeOp 1 (), DagOp.depOp 1 0,
          DagOp.mergeOp (Dag.root 5 ())]).roots ↔
      ∃ nd, (applyOps (Dag.new Unit)
        [DagOp.nodeOp 0 (), DagOp.nodeOp 1 (), DagOp.depOp 1 0,
          DagOp.mergeOp (Dag.root 5 ())]).get k = some nd ∧
        nd.dependencies = ([] : List Nat)) :=
  claim_C3 (Dag.new Unit)
    [DagOp.nodeOp 0 (), DagOp.nodeOp 1 (), DagOp.depOp 1 0,
      DagOp.mergeOp (Dag.root 5 ())] cacheWF_new

/-! ## Branch equations for the traversal workers -/

section BranchEqs

variable {V : Type}

theorem visitP_mem {d : Dag V} {key : Nat} {visited order : List Nat}
    (hv : key ∈ visited) : (visitP d key visited order).val = (visited, order) := by
  rw [visitP, dif_pos hv]

theorem visitP_none {d : Dag V} {key : Nat} {visited order : List Nat}
    (hv : key ∉ visited) (hl : lookupA d.graph key = none) :
    (visitP d key visited order).val = (insertS key visited, order ++ [key]) := by
  rw [visitP, dif_neg hv]
  split
  · rfl
  · next nd heq =>
    rw [hl] at heq
    exact Option.noConfusion heq

theorem visitP_some {d : Dag V} {key : Nat} {visited order : List Nat}
    {nd : Node V} (hv : key ∉ visited) (hl : lookupA d.graph key = some nd) :
    (visitP d key visited order).val =
      ((visitListP d nd.dependencies (insertS key visited) order).val.1,
       (visitListP d nd.dependencies (insertS key visited) order).val.2 ++ [key]) := by
  rw [visitP, dif_neg hv]
  split
  · next heq =>
    rw [hl] at heq
    exact Option.noConfusion heq
  · next nd2 heq =>
    rw [hl] at heq
    injection heq with heq2
    subst heq2
    rfl

theorem visitListP_nil {d : Dag V} {visited order : List Nat} :
    (visitListP d [] visited order).val = (visited, order) := by
  rw [visitListP]

theorem visitListP_cons {d : Dag V} {k : Nat} {ks : List Nat}
    {visited order : List Nat} :
    (visitListP d (k :: ks) visited order).val =
      (visitListP d ks (visitP d k visited order).val.1
        (visitP d k visited order).val.2).val := by
  rw [visitListP]

theorem descAux_nil {d : Dag V} {visited nodes : List Nat} :
    descAux d visited [] nodes = nodes := by
  rw [descAux]

theorem descAux_absent {d : Dag V} {visited nodes : List Nat} {key : Nat}
    {rest : List Nat} (hl : lookupA d.graph key = none) :
    descAux d visited (key :: rest) nodes = descAux d visited rest nodes := by
  rw [descAux]
  split
  · rfl
  · next nd heq =>
    rw [hl] at heq
    exact Option.noConfusion heq

theorem descAux_mem {d : Dag V} {visited nodes : List Nat} {key : Nat}
    {rest : List Nat} {nd : Node V} (hl : lookupA d.graph key = some nd)
    (hv : key ∈ visited) :
    descAux d visited (key :: rest) nodes = descAux d visited rest nodes := by
  rw [descAux]
  split
  · rfl
  · next nd2 heq =>
    rw [hl] at heq
    injection heq with heq2
    subst heq2
    rw [dif_pos hv]

theorem descAux_new {d : Dag V} {visited nodes : List Nat} {key : Nat}
    {rest : List Nat} {nd : Node V} (hl : lookupA d.graph key = some nd)
    (hv : key ∉ visited) :
    descAux d visited (key :: rest) nodes =
      descAux d (insertS key visited) (rest ++ nd.dependents) (nodes ++ [key]) := by
  rw [descAux]
  split
  · next heq =>
    rw [hl] at heq
    exact Option.noConfusion heq
  · next nd2 heq =>
    rw [hl] at heq
    injection heq with heq2
    subst heq2
    rw [dif_neg hv]

theorem foldTr_nil {A : Type} {d : Dag V}
    {filter : A → Nat → Node V → Nat → Flow A} {visited : List Nat} {acc : A} :
    foldTr d filter visited [] acc = (acc, []) := by
  rw [foldTr]

theorem foldTr_mem {A : Type} {d : Dag V}
    {filter : A → Nat → Node V → Nat → Flow A} {visited : List Nat} {acc : A}
    {next depth : Nat} {rest : List (Nat × Nat)} (hv : next ∈ visited) :
    foldTr d filter visited ((next, depth) :: rest) acc =
      foldTr d filter visited rest acc := by
  rw [foldTr, dif_pos hv]

theorem foldTr_absent {A : Type} {d : Dag V}
    {filter : A → Nat → Node V → Nat → Flow A} {visited : List Nat} {acc : A}
    {next depth : Nat} {rest : List (Nat × Nat)} (hv : next ∉ visited)
    (hl : lookupA d.graph next = none) :
    foldTr d filter visited ((next, depth) :: rest) acc =
      foldTr d filter (insertS next visited) rest acc := by
  rw [foldTr, dif_neg hv]
  split
  · rfl
  · next nd heq =>
    rw [hl] at heq
    exact Option.noConfusion heq

theorem foldTr_cont {A : Type} {d : Dag V}
    {filter : A → Nat → Node V → Nat → Flow A} {visited : List Nat} {acc : A}
    {next depth : Nat} {rest : List (Nat × Nat)} {nd : Node V} {a : A}
    (hv : next ∉ visited) (hl : lookupA d.graph next = some nd)
    (hfl : filter acc next nd depth = Flow.cont a) :
    foldTr d filter visited ((next, depth) :: rest) acc =
      ((foldTr d filter (insertS next visited)
          (rest ++ nd.dependents.map (fun k => (k, depth + 1))) a).1,
        (next, false) ::
          (foldTr d filter (insertS next visited)
            (rest ++ nd.dependents.map (fun k => (k, depth + 1))) a).2) := by
  rw [foldTr, dif_neg hv]
  split
  · next heq =>
    rw [hl] at heq
    exact Option.noConfusion heq
  · next nd2 heq =>
    rw [hl] at heq
    injection heq with heq2
    subst heq2
    rw [hfl]

theorem foldTr_brk {A : Type} {d : Dag V}
    {filter : A → Nat → Node V → Nat → Flow A} {visited : List Nat} {acc : A}
    {next depth : Nat} {rest : List (Nat × Nat)} {nd : Node V} {a : A}
    (hv : next ∉ visited) (hl : lookupA d.graph next = some nd)
    (hfl : filter acc next nd depth = Flow.brk a) :
    foldTr d filter visited ((next, depth) :: rest) acc =
      ((foldTr d filter
          ((d.descendantsOf nd).foldl (fun vs k => insertS k vs)
            (insertS next visited)) rest a).1,
        (next, true) ::
          (foldTr d filter
            ((d.descendantsOf nd).foldl (fun vs k => insertS k vs)
              (insertS next visited)) rest a).2) := by
  rw [foldTr, dif_neg hv]
  split
  · next heq =>
    rw [hl] at heq
    exact Option.noConfusion heq
  · next nd2 heq =>
    rw [hl] at heq
    injection heq with heq2
    subst heq2
    rw [hfl]

theorem mergeAux_nil {s other : Dag V} {visited : List Nat} :
    mergeAux s other visited [] = s := by
  rw [mergeAux]

theorem mergeAux_mem {s other : Dag V} {visited : List Nat} {next : Nat}
    {rest : List Nat} (hv : next ∈ visited) :
    mergeAux s other visited (next :: rest) = mergeAux s other visited rest := by
  rw [mergeAux, dif_pos hv]

theorem mergeAux_absent {s other : Dag V} {visited : List Nat} {next : Nat}
    {rest : List Nat} (hv : next ∉ visited)
    (hl : lookupA other.graph next = none) :
    mergeAux s other visited (next :: rest) =
      mergeAux s other (insertS next visited) rest := by
  rw [mergeAux, dif_neg hv]
  split
  · rfl
  · next nd heq =>
    rw [hl] at heq
    exact Option.noConfusion heq

theorem mergeAux_step {s other : Dag V} {visited : List Nat} {next : Nat}
    {rest : List Nat} {nd : Node V} (hv : next ∉ visited)
    (hl : lookupA other.graph next = some nd) :
    mergeAux s other visited (next :: rest) =
      mergeAux
        (nd.dependencies.foldl (fun t k => t.dependency next k)
          (nd.dependents.foldl (fun t k => t.dependency k next)
            (if s.contains next then s else (s.node next nd.value).1)))
        { other with graph := removeA other.graph next }
        (insertS next visited) (rest ++ nd.dependents) := by
  rw [mergeAux, dif_neg hv]
  split
  · next heq =>
    rw [hl] at heq
    exact Option.noConfusion heq
  · next nd2 heq =>
    rw [hl] at heq
    injection heq with heq2
    subst heq2
    rfl

theorem procAux_nil {other : Dag V} {visited : List Nat} :
    procAux other visited [] = [] := by
  rw [procAux]

theorem procAux_mem {other : Dag V} {visited : List Nat} {next : Nat}
    {rest : List Nat} (hv : next ∈ visited) :
    procAux other visited (next :: rest) = procAux other visited rest := by
  rw [procAux, dif_pos hv]

theorem procAux_absent {other : Dag V} {visited : List Nat} {next : Nat}
    {rest : List Nat} (hv : next ∉ visited)
    (hl : lookupA other.graph next = none) :
    procAux other visited (next :: rest) =
      procAux other (insertS next visited) rest := by
  rw [procAux, dif_neg hv]
  split
  · rfl
  · next nd heq =>
    rw [hl] at heq
    exact Option.noConfusion heq

theorem procAux_step {other : Dag V} {visited : List Nat} {next : Nat}
    {rest : List Nat} {nd : Node V} (hv : next ∉ visited)
    (hl : lookupA other.graph next = some nd) :
    procAux other visited (next :: rest) =
      (next, nd) ::
        procAux { other with graph := removeA other.graph next }
          (insertS next visited) (rest ++ nd.dependents) := by
  rw [procAux, dif_neg hv]
  split
  · next heq =>
    rw [hl] at heq
    exact Option.noConfusion heq
  · next nd2 heq =>
    rw [hl] at heq
    injection heq with heq2
    subst heq2
    rfl

end BranchEqs

/-! ## Claim C10: dependency edges to absent keys -/

theorem mem_insOrd {cmp : Nat → Nat → Ordering} {a x : Nat} :
    ∀ {l : List Nat}, a ∈ insOrd cmp x l ↔ a = x ∨ a ∈ l := by
  intro l
  induction l with
  | nil => simp [insOrd]
  | cons y ys ih =>
    cases hcmp : cmp x y with
    | lt => simp [insOrd, hcmp]
    | eq => simp [insOrd, hcmp]
    | gt =>
      simp only [insOrd, hcmp, List.mem_cons, ih]
      tauto

theorem mem_sortCmp {cmp : Nat → Nat → Ordering} {a : Nat} :
    ∀ {l : List Nat}, a ∈ sortCmp cmp l ↔ a ∈ l := by
  intro l
  induction l with
  | nil => simp [sortCmp]
  | cons x xs ih =>
    simp only [sortCmp, mem_insOrd, List.mem_cons, ih]

theorem map_fst_updateA {α : Type} {l : List (Nat × α)} {key : Nat}
    {g : α → α} : (updateA l key g).map Prod.fst = l.map Prod.fst := by
  induction l with
  | nil => simp [updateA]
  | cons p rest ih =>
    obtain ⟨k, w⟩ := p
    by_cases hk : k = key
    · simp [updateA, hk]
    · simp [updateA, hk, ih]

/-- Weak visit invariant: the visited set is exactly the output order plus
the in-progress set `G`, and every visited, non-in-progress, present key has
all its dependencies visited. -/
def VInvA {V : Type} (d : Dag V) (G visited order : List Nat) : Prop :=
  (∀ a, a ∈ visited ↔ (a ∈ order ∨ a ∈ G)) ∧
  (∀ a, a ∈ visited → a ∉ G →
    ∀ nd, lookupA d.graph a = some nd → ∀ b ∈ nd.dependencies, b ∈ visited)

theorem visit_specA {V : Type} (d : Dag V) :
    ∀ (key : Nat) (visited order : List Nat),
      ∀ G, VInvA d G visited order →
        VInvA d G (visitP d key visited order).val.1
          (visitP d key visited order).val.2 ∧
        key ∈ (visitP d key visited order).val.1 := by
  refine visitP.induct d
    (fun key visited order => ∀ G, VInvA d G visited order →
      VInvA d G (visitP d key visited order).val.1
        (visitP d key visited order).val.2 ∧
      key ∈ (visitP d key visited order).val.1)
    (fun ks visited order => ∀ G, VInvA d G visited order →
      VInvA d G (visitListP d ks visited order).val.1
        (visitListP d ks visited order).val.2 ∧
      ∀ k ∈ ks, k ∈ (visitListP d ks visited order).val.1)
    ?_ ?_ ?_ ?_ ?_
  · intro key visited order hv G hInv
    simp only [visitP_mem hv]
    exact ⟨hInv, hv⟩
  · intro key visited order hv hl G hInv
    obtain ⟨h1, h4⟩ := hInv
    simp only [visitP_none hv hl]
    refine ⟨⟨?_, ?_⟩, mem_insertS_self⟩
    · intro a
      rw [mem_insertS]
      constructor
      · rintro (rfl | ha)
        · left
          simp
        · rcases (h1 a).mp ha with h | h
          · left
            exact List.mem_append_left _ h
          · right
            exact h
      · rintro (ha | ha)
        · rcases List.mem_append.mp ha with ha | ha
          · right
            exact (h1 a).mpr (Or.inl ha)
          · left
            simpa using ha
        · right
          exact (h1 a).mpr (Or.inr ha)
    · intro a ha hG nda hnda b hb
      rw [mem_insertS] at ha
      rcases ha with rfl | ha
      · rw [hl] at hnda
        exact Option.noConfusion hnda
      · exact subset_insertS (h4 a ha hG nda hnda b hb)
  · intro key visited order hv nd hl IH G hInv
    obtain ⟨h1, h4⟩ := hInv
    have hInv' : VInvA d (key :: G) (insertS key visited) order := by
      constructor
      · intro a
        rw [mem_insertS]
        constructor
        · rintro (rfl | ha)
          · right
            exact List.mem_cons_self _ _
          · rcases (h1 a).mp ha with h | h
            · left
              exact h
            · right
              exact List.mem_cons_of_mem _ h
        · rintro (ha | ha)
          · right
            exact (h1 a).mpr (Or.inl ha)
          · rcases List.mem_cons.mp ha with rfl | haG
            · left
              rfl
            · right
              exact (h1 a).mpr (Or.inr haG)
      · intro a ha hG nda hnda b hb
        rw [mem_insertS] at ha
        rcases ha with rfl | ha
        · exact absurd (List.mem_cons_self _ _) hG
        · have hGa : a ∉ G := fun h => hG (List.mem_cons_of_mem _ h)
          exact subset_insertS (h4 a ha hGa nda hnda b hb)
    obtain ⟨⟨g1, g4⟩, gdeps⟩ := IH (key :: G) hInv'
    simp only [visitP_some hv hl]
    refine ⟨⟨?_, ?_⟩, ?_⟩
    · intro a
      rw [g1 a]
      constructor
      · rintro (ha | ha)
        · left
          exact List.mem_append_left _ ha
        · rcases List.mem_cons.mp ha with rfl | haG
          · left
            exact List.mem_append_right _ (by simp)
          · right
            exact haG
      · rintro (ha | ha)
        · rcases List.mem_append.mp ha with ha | ha
          · left
            exact ha
          · right
            simp only [List.mem_singleton] at ha
            subst ha
            exact List.mem_cons_self _ _
        · right
          exact List.mem_cons_of_mem _ ha
    · intro a ha hG nda hnda b hb
      by_cases hak : a = key
      · subst hak
        rw [hl] at hnda
        injection hnda with h
        subst h
        exact gdeps b hb
      · have haG' : a ∉ key :: G := by
          intro h
          rcases List.mem_cons.mp h with h | h
          · exact hak h
          · exact hG h
        exact g4 a ha haG' nda hnda b hb
    · exact (g1 key).mpr (Or.inr (List.mem_cons_self _ _))
  · intro visited order G hInv
    simp only [visitListP_nil]
    exact ⟨hInv, by simp⟩
  · intro visited order y ys r1 IH1 IH2 IH2' G hInv
    obtain ⟨hInvR1, hyR1⟩ := IH1 G hInv
    obtain ⟨hInvR2, hksR2⟩ := IH2 G hInvR1
    simp only [visitListP_cons]
    refine ⟨hInvR2, ?_⟩
    intro k hk
    rcases List.mem_cons.mp hk with rfl | hk
    · exact (visitListP d ys (visitP d k visited order).val.1
        (visitP d k visited order).val.2).property hyR1
    · exact hksR2 k hk

theorem sortedA_inv {V : Type} (d : Dag V) :
    ∀ (ks : List Nat) (st : List Nat × List Nat), VInvA d [] st.1 st.2 →
      VInvA d []
        (List.foldl (fun st k => (visitP d k st.1 st.2).val) st ks).1
        (List.foldl (fun st k => (visitP d k st.1 st.2).val) st ks).2 ∧
      (∀ k ∈ ks,
        k ∈ (List.foldl (fun st k => (visitP d k st.1 st.2).val) st ks).1) ∧
      st.1 ⊆ (List.foldl (fun st k => (visitP d k st.1 st.2).val) st ks).1 := by
  intro ks
  induction ks with
  | nil =>
    intro st h
    exact ⟨h, by simp, List.Subset.refl _⟩
  | cons k rest ih =>
    intro st h
    obtain ⟨h', hk⟩ := visit_specA d k st.1 st.2 [] h
    obtain ⟨hI, hks, hmono⟩ := ih (visitP d k st.1 st.2).val h'
    simp only [List.foldl_cons]
    refine ⟨hI, ?_, ?_⟩
    · intro j hj
      rcases List.mem_cons.mp hj with rfl | hj
      · exact hmono hk
      · exact hks j hj
    · exact List.Subset.trans (visitP d k st.1 st.2).property hmono

/-- Claim C10: with `from` present and `to` absent, `dependency(from, to)`
records `to` in `from`'s dependency set and erases `from` from the roots, so
afterwards `has_dependency(from, to)` is true even though `contains(to)` is
false, and the absent key `to` still appears in the output of `sorted`. -/
theorem claim_C10 {V : Type} (d : Dag V) (f t : Nat) (nf : Node V)
    (hf : lookupA d.graph f = some nf) (ht : lookupA d.graph t = none)
    (hr : d.roots.Nodup) (cmp : Nat → Nat → Ordering) :
    (d.dependency f t).hasDependency f t = true ∧
    (d.dependency f t).contains t = false ∧
    f ∉ (d.dependency f t).roots ∧
    t ∈ (d.dependency f t).sorted cmp := by
  have hft : t ≠ f := by
    intro h
    rw [h, hf] at ht
    exact Option.noConfusion ht
  have hd' : d.dependency f t =
      ⟨updateA d.graph f
        (fun nd => { nd with dependencies := insertS t nd.dependencies }),
        d.tips, d.roots.erase f⟩ := by
    unfold Dag.dependency
    simp only [hf]
    rw [lookupA_updateA_ne hft, ht]
  rw [hd']
  have hlookf : lookupA (updateA d.graph f
      (fun nd => { nd with dependencies := insertS t nd.dependencies })) f =
      some { nf with dependencies := insertS t nf.dependencies } := by
    rw [lookupA_updateA_self, hf]
    rfl
  refine ⟨?_, ?_, ?_, ?_⟩
  · simp [Dag.hasDependency, hlookf, mem_insertS_self]
  · simp [Dag.contains, lookupA_updateA_ne hft, ht]
  · intro h
    exact absurd ((hr.mem_erase_iff).mp h).1 (by simp)
  · set d2 : Dag V :=
      ⟨updateA d.graph f
        (fun nd => { nd with dependencies := insertS t nd.dependencies }),
        d.tips, d.roots.erase f⟩ with hd2
    have hbase : VInvA d2 [] [] [] := by
      constructor
      · intro a
        simp
      · intro a ha
        simp at ha
    obtain ⟨⟨i1, i4⟩, iks, _⟩ :=
      sortedA_inv d2 (sortCmp cmp (keysList d2)) ([], []) hbase
    have hfks : f ∈ sortCmp cmp (keysList d2) := by
      rw [mem_sortCmp]
      have : f ∈ d.graph.map Prod.fst := lookupA_mem_keys hf
      simpa [keysList, hd2, map_fst_updateA] using this
    have hfin : f ∈ (List.foldl (fun st k => (visitP d2 k st.1 st.2).val)
        ([], []) (sortCmp cmp (keysList d2))).1 := iks f hfks
    have htin : t ∈ (List.foldl (fun st k => (visitP d2 k st.1 st.2).val)
        ([], []) (sortCmp cmp (keysList d2))).1 := by
      refine i4 f hfin (by simp) { nf with dependencies := insertS t nf.dependencies }
        ?_ t mem_insertS_self
      exact hlookf
    rcases (i1 t).mp htin with h | h
    · exact h
    · simp at h

/-- Example node used by the C10 witness. -/
def nodeC10 : Node Nat := ⟨7, [], []⟩

/-- Witness instantiating `claim_C10` at a concrete graph with present key 0
and absent key 1. -/
theorem claim_C10_witness :
    (dagC7.dependency 0 1).hasDependency 0 1 = true ∧
    (dagC7.dependency 0 1).contains 1 = false ∧
    0 ∉ (dagC7.dependency 0 1).roots ∧
    1 ∈ (dagC7.dependency 0 1).sorted (fun _ _ => Ordering.eq) :=
  claim_C10 dagC7 0 1 nodeC10 (by decide) (by decide) (by decide)
    (fun _ _ => Ordering.eq)

/-! ## Claim C1: topological soundness of `Dag::sorted` -/

/-- A recorded dependency edge: `a` is present and `b` is in its
dependency set. -/
def edgeD {V : Type} (d : Dag V) (a b : Nat) : Prop :=
  ∃ nd, lookupA d.graph a = some nd ∧ b ∈ nd.dependencies

/-- Reachability along recorded dependency edges. -/
def ReachD {V : Type} (d : Dag V) : Nat → Nat → Prop :=
  Relation.ReflTransGen (edgeD d)

/-- A rank function strictly decreasing along every recorded dependency;
its existence certifies acyclicity of the recorded dependency relation. -/
def RankOk {V : Type} (d : Dag V) (rank : Nat → Nat) : Prop :=
  ∀ p ∈ d.graph, ∀ b ∈ p.2.dependencies, rank b < rank p.1

theorem edge_rank {V : Type} {d : Dag V} {rank : Nat → Nat}
    (hrank : RankOk d rank) {a b : Nat} (h : edgeD d a b) : rank b < rank a := by
  obtain ⟨nd, ha, hb⟩ := h
  exact hrank (a, nd) (lookupA_entry_mem ha) b hb

theorem reach_rank {V : Type} {d : Dag V} {rank : Nat → Nat}
    (hrank : RankOk d rank) {a b : Nat} (h : ReachD d a b) : rank b ≤ rank a := by
  induction h with
  | refl => exact le_refl _
  | tail hr he ih => exact le_trans (le_of_lt (edge_rank hrank he)) ih

/-- Strong visit invariant: visited is exactly order plus the in-progress
set `G`, the order has no duplicates, and every recorded dependency of an
ordered key either occurs strictly earlier in the order or is in progress. -/
def VInvB {V : Type} (d : Dag V) (G visited order : List Nat) : Prop :=
  (∀ a, a ∈ visited ↔ (a ∈ order ∨ a ∈ G)) ∧
  order.Nodup ∧
  (∀ a ∈ order, ∀ b, edgeD d a b → [b, a].Sublist order ∨ b ∈ G)

theorem visit_specB {V : Type} (d : Dag V) (rank : Nat → Nat)
    (hrank : RankOk d rank) :
    ∀ (key : Nat) (visited order : List Nat),
      ∀ G, VInvB d G visited order → (∀ x ∈ G, ReachD d x key) →
        VInvB d G (visitP d key visited order).val.1
          (visitP d key visited order).val.2 ∧
        (∃ ext, (visitP d key visited order).val.2 = order ++ ext) ∧
        key ∈ (visitP d key visited order).val.1 ∧
        (∀ a ∈ (visitP d key visited order).val.2, a ∉ order →
          ReachD d key a ∧ a ∉ visited) := by
  refine visitP.induct d
    (fun key visited order => ∀ G, VInvB d G visited order →
      (∀ x ∈ G, ReachD d x key) →
        VInvB d G (visitP d key visited order).val.1
          (visitP d key visited order).val.2 ∧
        (∃ ext, (visitP d key visited order).val.2 = order ++ ext) ∧
        key ∈ (visitP d key visited order).val.1 ∧
        (∀ a ∈ (visitP d key visited order).val.2, a ∉ order →
          ReachD d key a ∧ a ∉ visited))
    (fun ks visited order => ∀ G, VInvB d G visited order →
      (∀ x ∈ G, ∀ k ∈ ks, ReachD d x k) →
        VInvB d G (visitListP d ks visited order).val.1
          (visitListP d ks visited order).val.2 ∧
        (∃ ext, (visitListP d ks visited order).val.2 = order ++ ext) ∧
        (∀ k ∈ ks, k ∈ (visitListP d ks visited order).val.1) ∧
        (∀ a ∈ (visitListP d ks visited order).val.2, a ∉ order →
          (∃ k ∈ ks, ReachD d k a) ∧ a ∉ visited))
    ?_ ?_ ?_ ?_ ?_
  · intro key visited order hv G hInv hG
    simp only [visitP_mem hv]
    exact ⟨hInv, ⟨[], by simp⟩, hv, fun a ha hno => absurd ha hno⟩
  · intro key visited order hv hl G hInv hG
    obtain ⟨h1, h2, h3⟩ := hInv
    have hko : key ∉ order := fun h => hv ((h1 key).mpr (Or.inl h))
    simp only [visitP_none hv hl]
    refine ⟨⟨?_, ?_, ?_⟩, ⟨[key], rfl⟩, mem_insertS_self, ?_⟩
    · intro a
      rw [mem_insertS]
      constructor
      · rintro (rfl | ha)
        · left
          exact List.mem_append_right _ (by simp)
        · rcases (h1 a).mp ha with h | h
          · left
            exact List.mem_append_left _ h
          · right
            exact h
      · rintro (ha | ha)
        · rcases List.mem_append.mp ha with ha | ha
          · right
            exact (h1 a).mpr (Or.inl ha)
          · left
            simpa using ha
        · right
          exact (h1 a).mpr (Or.inr ha)
    · rw [List.nodup_append]
      exact ⟨h2, List.nodup_singleton _, by
        intro a ha hb
        simp only [List.mem_singleton] at hb
        subst hb
        exact hko ha⟩
    · intro a ha b hab
      rcases List.mem_append.mp ha with ha | ha
      · rcases h3 a ha b hab with h | h
        · left
          exact h.trans (List.sublist_append_left _ _)
        · right
          exact h
      · simp only [List.mem_singleton] at ha
        subst ha
        obtain ⟨nd, hnd, _⟩ := hab
        rw [hl] at hnd
        exact Option.noConfusion hnd
    · intro a ha hno
      rcases List.mem_append.mp ha with ha | ha
      · exact absurd ha hno
      · simp only [List.mem_singleton] at ha
        subst ha
        exact ⟨Relation.ReflTransGen.refl, hv⟩
  · intro key visited order hv nd hl IH G hInv hG
    obtain ⟨h1, h2, h3⟩ := hInv
    have hko : key ∉ order := fun h => hv ((h1 key).mpr (Or.inl h))
    have hInv' : VInvB d (key :: G) (insertS key visited) order := by
      refine ⟨?_, h2, ?_⟩
      · intro a
        rw [mem_insertS]
        constructor
        · rintro (rfl | ha)
          · right
            exact List.mem_cons_self _ _
          · rcases (h1 a).mp ha with h | h
            · left
              exact h
            · right
              exact List.mem_cons_of_mem _ h
        · rintro (ha | ha)
          · right
            exact (h1 a).mpr (Or.inl ha)
          · rcases List.mem_cons.mp ha with rfl | haG
            · left
              rfl
            · right
              exact (h1 a).mpr (Or.inr haG)
      · intro a ha b hab
        rcases h3 a ha b hab with h | h
        · left
          exact h
        · right
          exact List.mem_cons_of_mem _ h
    have hG' : ∀ x ∈ key :: G, ∀ k ∈ nd.dependencies, ReachD d x k := by
      intro x hx k hk
      rcases List.mem_cons.mp hx with rfl | hxG
      · exact Relation.ReflTransGen.single ⟨nd, hl, hk⟩
      · exact (hG x hxG).tail ⟨nd, hl, hk⟩
    obtain ⟨⟨g1, g2, g3⟩, ⟨ext1, hext⟩, gdeps, gnew⟩ := IH (key :: G) hInv' hG'
    have hkr : key ∉ (visitListP d nd.dependencies (insertS key visited)
        order).val.2 := by
      intro h
      by_cases ho : key ∈ order
      · exact hko ho
      · exact (gnew key h ho).2 mem_insertS_self
    simp only [visitP_some hv hl]
    refine ⟨⟨?_, ?_, ?_⟩, ⟨ext1 ++ [key], by rw [hext, List.append_assoc]⟩, ?_, ?_⟩
    · intro a
      rw [g1 a]
      constructor
      · rintro (ha | ha)
        · left
          exact List.mem_append_left _ ha
        · rcases List.mem_cons.mp ha with rfl | haG
          · left
            exact List.mem_append_right _ (by simp)
          · right
            exact haG
      · rintro (ha | ha)
        · rcases List.mem_append.mp ha with ha | ha
          · left
            exact ha
          · right
            simp only [List.mem_singleton] at ha
            subst ha
            exact List.mem_cons_self _ _
        · right
          exact List.mem_cons_of_mem _ ha
    · rw [List.nodup_append]
      exact ⟨g2, List.nodup_singleton _, by
        intro a ha hb
        simp only [List.mem_singleton] at hb
        subst hb
        exact hkr ha⟩
    · intro a ha b hab
      rcases List.mem_append.mp ha with ha | ha
      · rcases g3 a ha b hab with h | h
        · left
          exact h.trans (List.sublist_append_left _ _)
        · rcases List.mem_cons.mp h with rfl | hbG
          · by_cases ho : a ∈ order
            · rcases h3 a ho b hab with hsub | hbG2
              · exact absurd ((List.Sublist.subset hsub) (by simp)) hko
              · right
                exact hbG2
            · obtain ⟨⟨k, hk, hreach⟩, _⟩ := gnew a ha ho
              have hr1 : rank a ≤ rank k := reach_rank hrank hreach
              have hr2 : rank k < rank b := edge_rank hrank ⟨nd, hl, hk⟩
              have hr3 : rank b < rank a := edge_rank hrank hab
              omega
          · right
            exact hbG
      · simp only [List.mem_singleton] at ha
        subst ha
        obtain ⟨nd2, hnd2, hbdep⟩ := hab
        rw [hl] at hnd2
        injection hnd2 with hnd2
        subst hnd2
        rcases (g1 b).mp (gdeps b hbdep) with hb2 | hb2
        · left
          exact List.Sublist.append (List.singleton_sublist.mpr hb2)
            (List.Sublist.refl _)
        · rcases List.mem_cons.mp hb2 with rfl | hbG
          · exact absurd (edge_rank hrank ⟨nd, hl, hbdep⟩) (lt_irrefl _)
          · right
            exact hbG
    · exact (g1 key).mpr (Or.inr (List.mem_cons_self _ _))
    · intro a ha hno
      rcases List.mem_append.mp ha with ha | ha
      · obtain ⟨⟨k, hk, hreach⟩, hnv⟩ := gnew a ha hno
        refine ⟨Relation.ReflTransGen.trans
          (Relation.ReflTransGen.single ⟨nd, hl, hk⟩) hreach, ?_⟩
        intro hav
        exact hnv (subset_insertS hav)
      · simp only [List.mem_singleton] at ha
        subst ha
        exact ⟨Relation.ReflTransGen.refl, hv⟩
  · intro visited order G hInv hG
    simp only [visitListP_nil]
    exact ⟨hInv, ⟨[], by simp⟩, by simp, fun a ha hno => absurd ha hno⟩
  · intro visited order y ys r1 IH1 IH2 IH2' G hInv hG
    obtain ⟨hI1, ⟨e1, he1⟩, hy1, hnew1⟩ :=
      IH1 G hInv (fun x hx => hG x hx y (List.mem_cons_self _ _))
    obtain ⟨hI2, ⟨e2, he2⟩, hks2, hnew2⟩ :=
      IH2 G hI1 (fun x hx k hk => hG x hx k (List.mem_cons_of_mem _ hk))
    simp only [visitListP_cons]
    refine ⟨hI2, ⟨e1 ++ e2, by rw [he2, he1, List.append_assoc]⟩, ?_, ?_⟩
    · intro k hk
      rcases List.mem_cons.mp hk with rfl | hk
      · exact (visitListP d ys (visitP d k visited order).val.1
          (visitP d k visited order).val.2).property hy1
      · exact hks2 k hk
    · intro a ha hno
      by_cases ha1 : a ∈ (visitP d y visited order).val.2
      · obtain ⟨hreach, hnv⟩ := hnew1 a ha1 hno
        exact ⟨⟨y, List.mem_cons_self _ _, hreach⟩, hnv⟩
      · obtain ⟨⟨k, hk, hreach⟩, hnv⟩ := hnew2 a ha ha1
        refine ⟨⟨k, List.mem_cons_of_mem _ hk, hreach⟩, ?_⟩
        intro hav
        exact hnv ((visitP d y visited order).property hav)

theorem sortedB_inv {V : Type} (d : Dag V) (rank : Nat → Nat)
    (hrank : RankOk d rank) :
    ∀ (ks : List Nat) (st : List Nat × List Nat), VInvB d [] st.1 st.2 →
      VInvB d []
        (List.foldl (fun st k => (visitP d k st.1 st.2).val) st ks).1
        (List.foldl (fun st k => (visitP d k st.1 st.2).val) st ks).2 ∧
      (∀ k ∈ ks,
        k ∈ (List.foldl (fun st k => (visitP d k st.1 st.2).val) st ks).1) := by
  intro ks
  induction ks with
  | nil =>
    intro st h
    exact ⟨h, by simp⟩
  | cons k rest ih =>
    intro st h
    obtain ⟨h', _, hk, _⟩ := visit_specB d rank hrank k st.1 st.2 [] h
      (fun x hx => absurd hx (List.not_mem_nil x))
    obtain ⟨hI, hks⟩ := ih (visitP d k st.1 st.2).val h'
    simp only [List.foldl_cons]
    refine ⟨hI, ?_⟩
    intro j hj
    rcases List.mem_cons.mp hj with rfl | hj
    · -- j's membership in the final visited set, via monotonicity of the fold
      have mono : ∀ (l : List Nat) (s : List Nat × List Nat),
          s.1 ⊆ (List.foldl (fun st k => (visitP d k st.1 st.2).val) s l).1 := by
        intro l
        induction l with
        | nil => intro s; exact List.Subset.refl _
        | cons x xs ihx =>
          intro s
          simp only [List.foldl_cons]
          exact List.Subset.trans (visitP d x s.1 s.2).property (ihx _)
      exact mono rest _ hk
    · exact hks j hj

/-- Claim C1 as amended: when the recorded dependency relation is acyclic
(certified by a rank function strictly decreasing along every recorded
dependency), the output of `sorted(compare)` is a valid topological order
for every comparator: every recorded dependency's target occurs strictly
before its source. -/
theorem claim_C1 {V : Type} (d : Dag V) (rank : Nat → Nat)
    (hrank : RankOk d rank) (cmp : Nat → Nat → Ordering) (a b : Nat)
    (nda : Node V) (ha : lookupA d.graph a = some nda)
    (hb : b ∈ nda.dependencies) :
    [b, a].Sublist (d.sorted cmp) := by
  have hbase : VInvB d [] ([] : List Nat) ([] : List Nat) := by
    refine ⟨?_, List.nodup_nil, ?_⟩
    · intro x
      simp
    · intro x hx
      simp at hx
  obtain ⟨⟨i1, i2, i3⟩, iks⟩ :=
    sortedB_inv d rank hrank (sortCmp cmp (keysList d)) ([], []) hbase
  have haks : a ∈ sortCmp cmp (keysList d) := by
    rw [mem_sortCmp]
    exact lookupA_mem_keys ha
  have hain : a ∈ (List.foldl (fun st k => (visitP d k st.1 st.2).val)
      ([], []) (sortCmp cmp (keysList d))).1 := iks a haks
  have haord : a ∈ (List.foldl (fun st k => (visitP d k st.1 st.2).val)
      ([], []) (sortCmp cmp (keysList d))).2 := by
    rcases (i1 a).mp hain with h | h
    · exact h
    · simp at h
  rcases i3 a haord b ⟨nda, ha, hb⟩ with h | h
  · exact h
  · simp at h

/-- Example graph for the C1 counterexample: a two-node cycle built by
legitimate `node`/`dependency` calls (mirroring the repository's own
`test_cycle`). -/
def dagCyc : Dag Unit :=
  (((((Dag.new Unit).node 0 ()).1.node 1 ()).1).dependency 0 1).dependency 1 0

theorem dagCyc_sorted : dagCyc.sorted (fun _ _ => Ordering.eq) = [1, 0] := by
  simp [Dag.sorted, dagCyc, Dag.new, Dag.node, Dag.dependency, sortCmp, insOrd,
    keysList, lookupA, insertA, updateA, insertS, insertAsc, visitP, visitListP]

/-- Claim C1 is false as stated (for every DAG built by node/dependency
calls): the cyclic graph records both dependency(0,1) and dependency(1,0),
and the stable all-equal sort leaves the key order `[0, 1]`, so the visit
of key 0 recurses into its dependency 1 and the produced order is `[1, 0]`;
that order violates dependency(1,0), which would need 0 before 1 (with the
cycle, no order can satisfy both recorded dependencies). -/
theorem claim_C1_counterexample :
    dagCyc.hasDependency 0 1 = true ∧ dagCyc.hasDependency 1 0 = true ∧
    dagCyc.sorted (fun _ _ => Ordering.eq) = [1, 0] ∧
    ¬ [0, 1].Sublist [1, 0] := by
  refine ⟨by decide, by decide, dagCyc_sorted, by decide⟩

/-- Example graph for the C1 witness: the diamond 0 ← 1, 0 ← 2, 1 ← 3,
2 ← 3. -/
def dagC1W : Dag Unit :=
  (((((((Dag.new Unit).node 0 ()).1.node 1 ()).1.node 2 ()).1.node 3
    ()).1.dependency 1 0).dependency 2 0).dependency 3 1 |>.dependency 3 2

/-- Node stored at key 3 of `dagC1W`. -/
def nodeC1W : Node Unit := ⟨(), [1, 2], []⟩

/-- Witness instantiating `claim_C1` on the diamond graph with the identity
rank function. -/
theorem claim_C1_witness :
    [1, 3].Sublist (dagC1W.sorted (fun _ _ => Ordering.eq)) :=
  claim_C1 dagC1W (fun k => k) (by unfold RankOk; decide) (fun _ _ => Ordering.eq)
    3 1 nodeC1W (by decide) (by decide)

/-! ## Claim C2: fold pruning via descendant poisoning -/

/-- A recorded dependent edge: `x` is present and `y` is in its dependents
set. -/
def rstep {V : Type} (d : Dag V) (x y : Nat) : Prop :=
  ∃ nx, lookupA d.graph x = some nx ∧ y ∈ nx.dependents

theorem mem_foldl_insertS {x : Nat} :
    ∀ {l v : List Nat}, x ∈ l → x ∈ l.foldl (fun vs k => insertS k vs) v := by
  intro l
  induction l with
  | nil => intro v h; simp at h
  | cons y ys ih =>
    intro v h
    simp only [List.foldl_cons]
    rcases List.mem_cons.mp h with rfl | h
    · exact subset_foldl_insertS mem_insertS_self
    · exact ih h

theorem descAux_prefix {V : Type} {d : Dag V} :
    ∀ (visited stack nodes : List Nat),
      ∃ ext, descAux d visited stack nodes = nodes ++ ext := by
  refine descAux.induct d
    (fun visited stack nodes => ∃ ext, descAux d visited stack nodes = nodes ++ ext)
    ?_ ?_ ?_ ?_
  · intro visited nodes
    exact ⟨[], by rw [descAux_nil, List.append_nil]⟩
  · intro visited nodes key rest hl ih
    rw [descAux_absent hl]
    exact ih
  · intro visited nodes key rest nd hl hv ih
    rw [descAux_mem hl hv]
    exact ih
  · intro visited nodes key rest nd hl hv ih
    rw [descAux_new hl hv]
    obtain ⟨ext, hext⟩ := ih
    exact ⟨key :: ext, by rw [hext, List.append_assoc]; rfl⟩

theorem descAux_cover {V : Type} {d : Dag V} :
    ∀ (visited stack nodes : List Nat),
      ∀ s ∈ stack, (∃ ns, lookupA d.graph s = some ns) →
        s ∈ visited ∨ s ∈ descAux d visited stack nodes := by
  refine descAux.induct d
    (fun visited stack nodes => ∀ s ∈ stack,
      (∃ ns, lookupA d.graph s = some ns) →
        s ∈ visited ∨ s ∈ descAux d visited stack nodes)
    ?_ ?_ ?_ ?_
  · intro visited nodes s hs
    simp at hs
  · intro visited nodes key rest hl ih s hs hpres
    rw [descAux_absent hl]
    rcases List.mem_cons.mp hs with rfl | hs
    · obtain ⟨ns, hns⟩ := hpres
      rw [hl] at hns
      exact Option.noConfusion hns
    · exact ih s hs hpres
  · intro visited nodes key rest nd hl hv ih s hs hpres
    rw [descAux_mem hl hv]
    rcases List.mem_cons.mp hs with rfl | hs
    · exact Or.inl hv
    · exact ih s hs hpres
  · intro visited nodes key rest nd hl hv ih s hs hpres
    rw [descAux_new hl hv]
    rcases List.mem_cons.mp hs with rfl | hs
    · right
      obtain ⟨ext, hext⟩ := descAux_prefix (d := d) (insertS s visited)
        (rest ++ nd.dependents) (nodes ++ [s])
      rw [hext]
      exact List.mem_append_left _ (List.mem_append_right _ (by simp))
    · rcases ih s (List.mem_append_left _ hs) hpres with h | h
      · rcases mem_insertS.mp h with rfl | h
        · right
          obtain ⟨ext, hext⟩ := descAux_prefix (d := d) (insertS s visited)
            (rest ++ nd.dependents) (nodes ++ [s])
          rw [hext]
          exact List.mem_append_left _ (List.mem_append_right _ (by simp))
        · exact Or.inl h
      · exact Or.inr h

theorem descAux_closed {V : Type} {d : Dag V} :
    ∀ (visited stack nodes : List Nat),
      (∀ a, a ∈ visited ↔ a ∈ nodes) →
      (∀ v ∈ visited, ∀ w, rstep d v w → (∃ nw, lookupA d.graph w = some nw) →
        w ∈ visited ∨ w ∈ stack) →
      (∀ v ∈ descAux d visited stack nodes, ∀ w, rstep d v w →
        (∃ nw, lookupA d.graph w = some nw) → w ∈ descAux d visited stack nodes) := by
  refine descAux.induct d
    (fun visited stack nodes =>
      (∀ a, a ∈ visited ↔ a ∈ nodes) →
      (∀ v ∈ visited, ∀ w, rstep d v w → (∃ nw, lookupA d.graph w = some nw) →
        w ∈ visited ∨ w ∈ stack) →
      (∀ v ∈ descAux d visited stack nodes, ∀ w, rstep d v w →
        (∃ nw, lookupA d.graph w = some nw) →
          w ∈ descAux d visited stack nodes))
    ?_ ?_ ?_ ?_
  · intro visited nodes hnv h1 v hv w hw hpres
    rw [descAux_nil] at *
    rcases h1 v ((hnv v).mpr hv) w hw hpres with h | h
    · exact (hnv w).mp h
    · simp at h
  · intro visited nodes key rest hl ih hnv h1
    rw [descAux_absent hl]
    refine ih hnv ?_
    intro v hv w hw hpres
    rcases h1 v hv w hw hpres with h | h
    · exact Or.inl h
    · rcases List.mem_cons.mp h with rfl | h
      · obtain ⟨nw, hnw⟩ := hpres
        rw [hl] at hnw
        exact Option.noConfusion hnw
      · exact Or.inr h
  · intro visited nodes key rest nd hl hv ih hnv h1
    rw [descAux_mem hl hv]
    refine ih hnv ?_
    intro v hvv w hw hpres
    rcases h1 v hvv w hw hpres with h | h
    · exact Or.inl h
    · rcases List.mem_cons.mp h with rfl | h
      · exact Or.inl hv
      · exact Or.inr h
  · intro visited nodes key rest nd hl hv ih hnv h1
    rw [descAux_new hl hv]
    refine ih ?_ ?_
    · intro a
      rw [mem_insertS]
      constructor
      · rintro (rfl | ha)
        · exact List.mem_append_right _ (by simp)
        · exact List.mem_append_left _ ((hnv a).mp ha)
      · intro ha
        rcases List.mem_append.mp ha with ha | ha
        · exact Or.inr ((hnv a).mpr ha)
        · left
          simpa using ha
    · intro v hvv w hw hpres
      rcases mem_insertS.mp hvv with rfl | hvv
      · obtain ⟨nv, hnv2, hwdep⟩ := hw
        rw [hl] at hnv2
        injection hnv2 with hnd
        subst hnd
        exact Or.inr (List.mem_append_right _ hwdep)
      · rcases h1 v hvv w hw hpres with h | h
        · exact Or.inl (subset_insertS h)
        · rcases List.mem_cons.mp h with rfl | h
          · exact Or.inl mem_insertS_self
          · exact Or.inr (List.mem_append_left _ h)

/-- Completeness of `descendants_of`: every present transitive dependent of
a present key is collected. -/
theorem descendantsOf_complete {V : Type} {d : Dag V} {X : Nat}
    {nX : Node V} (hlX : lookupA d.graph X = some nX) {D : Nat}
    (hpres : ∃ nD, lookupA d.graph D = some nD)
    (hreach : Relation.TransGen (rstep d) X D) :
    D ∈ d.descendantsOf nX := by
  have hcover := descAux_cover (V := V) (d := d) [] nX.dependents []
  have hclosed := descAux_closed (V := V) (d := d) [] nX.dependents []
    (by intro a; simp) (by intro v hv; simp at hv)
  have main : ∀ z, Relation.TransGen (rstep d) X z →
      (∃ nz, lookupA d.graph z = some nz) → z ∈ d.descendantsOf nX := by
    intro z hz
    induction hz with
    | single h =>
      intro hp
      obtain ⟨nx, hnx, hdep⟩ := h
      rw [hlX] at hnx
      injection hnx with hnx
      subst hnx
      rcases hcover _ hdep hp with h | h
      · simp at h
      · exact h
    | tail htg hstep ih =>
      intro hp
      obtain ⟨nc, hnc, hdep⟩ := hstep
      have hcR := ih ⟨nc, hnc⟩
      exact hclosed _ hcR _ ⟨nc, hnc, hdep⟩ hp
  exact main D hreach hpres

theorem foldTr_events_fresh {V A : Type} {d : Dag V}
    {filter : A → Nat → Node V → Nat → Flow A} :
    ∀ (visited : List Nat) (queue : List (Nat × Nat)) (acc : A),
      ∀ e ∈ (foldTr d filter visited queue acc).2, e.1 ∉ visited := by
  refine foldTr.induct d filter
    (fun visited queue acc =>
      ∀ e ∈ (foldTr d filter visited queue acc).2, e.1 ∉ visited)
    ?_ ?_ ?_ ?_ ?_
  · intro visited acc e he
    rw [foldTr_nil] at he
    simp at he
  · intro visited acc next depth rest hv ih e he
    rw [foldTr_mem hv] at he
    exact ih e he
  · intro visited acc next depth rest hv hl ih e he
    rw [foldTr_absent hv hl] at he
    intro hmem
    exact ih e he (subset_insertS hmem)
  · intro visited acc next depth rest hv nd hl a hfl ih e he
    rw [foldTr_cont hv hl hfl] at he
    rcases List.mem_cons.mp he with rfl | he
    · exact hv
    · intro hmem
      exact ih e he (subset_insertS hmem)
  · intro visited acc next depth rest hv nd hl a hfl ih e he
    rw [foldTr_brk hv hl hfl] at he
    rcases List.mem_cons.mp he with rfl | he
    · exact hv
    · intro hmem
      exact ih e he (subset_foldl_insertS (subset_insertS hmem))

theorem foldTr_events_present {V A : Type} {d : Dag V}
    {filter : A → Nat → Node V → Nat → Flow A} :
    ∀ (visited : List Nat) (queue : List (Nat × Nat)) (acc : A),
      ∀ e ∈ (foldTr d filter visited queue acc).2,
        ∃ n, lookupA d.graph e.1 = some n := by
  refine foldTr.induct d filter
    (fun visited queue acc =>
      ∀ e ∈ (foldTr d filter visited queue acc).2,
        ∃ n, lookupA d.graph e.1 = some n)
    ?_ ?_ ?_ ?_ ?_
  · intro visited acc e he
    rw [foldTr_nil] at he
    simp at he
  · intro visited acc next depth rest hv ih e he
    rw [foldTr_mem hv] at he
    exact ih e he
  · intro visited acc next depth rest hv hl ih e he
    rw [foldTr_absent hv hl] at he
    exact ih e he
  · intro visited acc next depth rest hv nd hl a hfl ih e he
    rw [foldTr_cont hv hl hfl] at he
    rcases List.mem_cons.mp he with rfl | he
    · exact ⟨nd, hl⟩
    · exact ih e he
  · intro visited acc next depth rest hv nd hl a hfl ih e he
    rw [foldTr_brk hv hl hfl] at he
    rcases List.mem_cons.mp he with rfl | he
    · exact ⟨nd, hl⟩
    · exact ih e he

theorem foldTr_break_poisons {V A : Type} {d : Dag V}
    {filter : A → Nat → Node V → Nat → Flow A} :
    ∀ (visited : List Nat) (queue : List (Nat × Nat)) (acc : A)
      (l₁ l₂ : List (Nat × Bool)) (X : Nat),
      (foldTr d filter visited queue acc).2 = l₁ ++ (X, true) :: l₂ →
      ∃ nX, lookupA d.graph X = some nX ∧
        ∀ e ∈ l₂, e.1 ∉ d.descendantsOf nX := by
  refine foldTr.induct d filter
    (fun visited queue acc =>
      ∀ (l₁ l₂ : List (Nat × Bool)) (X : Nat),
        (foldTr d filter visited queue acc).2 = l₁ ++ (X, true) :: l₂ →
        ∃ nX, lookupA d.graph X = some nX ∧
          ∀ e ∈ l₂, e.1 ∉ d.descendantsOf nX)
    ?_ ?_ ?_ ?_ ?_
  · intro visited acc l₁ l₂ X h
    rw [foldTr_nil] at h
    rcases l₁ with _ | ⟨e, l₁⟩ <;> simp at h
  · intro visited acc next depth rest hv ih l₁ l₂ X h
    rw [foldTr_mem hv] at h
    exact ih l₁ l₂ X h
  · intro visited acc next depth rest hv hl ih l₁ l₂ X h
    rw [foldTr_absent hv hl] at h
    exact ih l₁ l₂ X h
  · intro visited acc next depth rest hv nd hl a hfl ih l₁ l₂ X h
    rw [foldTr_cont hv hl hfl] at h
    rcases l₁ with _ | ⟨e, l₁⟩
    · simp only [List.nil_append, List.cons.injEq, Prod.mk.injEq] at h
      exact absurd h.1.2 (by simp)
    · simp only [List.cons_append, List.cons.injEq] at h
      exact ih l₁ l₂ X h.2
  · intro visited acc next depth rest hv nd hl a hfl ih l₁ l₂ X h
    rw [foldTr_brk hv hl hfl] at h
    rcases l₁ with _ | ⟨e, l₁⟩
    · simp only [List.nil_append, List.cons.injEq, Prod.mk.injEq] at h
      obtain ⟨⟨hX, _⟩, htail⟩ := h
      subst hX
      refine ⟨nd, hl, ?_⟩
      intro e he
      have := foldTr_events_fresh _ _ _ e (htail ▸ he)
      intro hdesc
      exact this (mem_foldl_insertS hdesc)
    · simp only [List.cons_append, List.cons.injEq] at h
      exact ih l₁ l₂ X h.2

/-- Claim C2: if during `fold(root, init, filter)` the filter breaks on a
node `X`, then no transitive dependent of `X` is passed to the filter at any
later point of the traversal, even when reachable from the root through a
different accepted path. Stated over the instrumented trace of filter
invocations (key, was-break) in call order. -/
theorem claim_C2 {V A : Type} (d : Dag V) (rootK : Nat) (init : A)
    (filter : A → Nat → Node V → Nat → Flow A) (X D : Nat) (bD : Bool)
    (l₁ l₂ : List (Nat × Bool))
    (htr : (foldTr d filter [] [(rootK, 0)] init).2 = l₁ ++ (X, true) :: l₂)
    (hD : (D, bD) ∈ l₂) :
    ¬ Relation.TransGen (rstep d) X D := by
  intro hreach
  obtain ⟨nX, hlX, hnot⟩ := foldTr_break_poisons [] [(rootK, 0)] init l₁ l₂ X htr
  have hDpres : ∃ n, lookupA d.graph D = some n := by
    have : ((D, bD) : Nat × Bool) ∈ (foldTr d filter [] [(rootK, 0)] init).2 := by
      rw [htr]
      exact List.mem_append_right _ (List.mem_cons_of_mem _ hD)
    exact foldTr_events_present [] [(rootK, 0)] init (D, bD) this
  exact hnot (D, bD) hD (descendantsOf_complete hlX hDpres hreach)

/-- Example graph for the C2 witness, mirroring the repository's
`test_fold_reject`: R=0 (accept), A1=1 (reject), A2=2, B1=3, C1=4, D1=5. -/
def dagC2 : Dag Bool :=
  (((((((((((Dag.new Bool).node 0 true).1.node 1 false).1.node 2
    true).1.node 3 true).1.node 4 true).1.node 5 true).1.dependency 1
    0).dependency 2 0).dependency 3 1).dependency 4 3).dependency 5 4
    |>.dependency 5 2

/-- Filter for the C2 witness: accept nodes whose value is true, break on
the others. -/
def filtC2 : List Nat → Nat → Node Bool → Nat → Flow (List Nat) :=
  fun acc k nd _ => if nd.value then Flow.cont (acc ++ [k]) else Flow.brk acc

theorem dagC2_trace :
    (foldTr dagC2 filtC2 [] [(0, 0)] ([] : List Nat)).2 =
      [(0, false)] ++ (1, true) :: [(2, false)] := by
  simp [-Prod.mk_zero_zero, -Prod.mk_one_one, dagC2, filtC2, foldTr, descAux, Dag.descendantsOf,
    Dag.new, Dag.node, Dag.dependency, lookupA, insertA, updateA, insertS,
    insertAsc]

/-- Witness instantiating `claim_C2` on the concrete break trace: node 1 is
broken and node 2 (passed to the filter later) is provably not a transitive
dependent of node 1. -/
theorem claim_C2_witness :
    (foldTr dagC2 filtC2 [] [(0, 0)] ([] : List Nat)).2 =
      [(0, false)] ++ (1, true) :: [(2, false)] ∧
    ¬ Relation.TransGen (rstep dagC2) 1 2 :=
  ⟨dagC2_trace,
    claim_C2 dagC2 0 [] filtC2 1 2 false [(0, false)] [(2, false)]
      dagC2_trace (by decide)⟩

/-! ## Merge machinery shared by claims C4 and C5 -/

section MergeMachinery

variable {V : Type}

/-- Presence of a key. -/
def presD (s : Dag V) (x : Nat) : Prop := (lookupA s.graph x).isSome

/-- The dependency list stored at a key (empty for absent keys). -/
def depsOf (s : Dag V) (x : Nat) : List Nat :=
  match lookupA s.graph x with
  | some nd => nd.dependencies
  | none => []

/-- The dependents list stored at a key (empty for absent keys). -/
def rdepsOf (s : Dag V) (x : Nat) : List Nat :=
  match lookupA s.graph x with
  | some nd => nd.dependents
  | none => []

theorem presD_iff_mem_keys {s : Dag V} {x : Nat} :
    presD s x ↔ x ∈ keysList s := by
  constructor
  · intro h
    rw [presD, Option.isSome_iff_exists] at h
    obtain ⟨nd, hnd⟩ := h
    exact lookupA_mem_keys hnd
  · intro h
    exact lookupA_isSome_of_mem_keys h

theorem depsOf_eq_nil_of_absent {s : Dag V} {x : Nat} (h : ¬ presD s x) :
    depsOf s x = [] := by
  rw [presD, Option.isSome_iff_exists] at h
  cases hl : lookupA s.graph x with
  | none => rw [depsOf, hl]
  | some nd => exact absurd ⟨nd, hl⟩ h

theorem rdepsOf_eq_nil_of_absent {s : Dag V} {x : Nat} (h : ¬ presD s x) :
    rdepsOf s x = [] := by
  rw [presD, Option.isSome_iff_exists] at h
  cases hl : lookupA s.graph x with
  | none => rw [rdepsOf, hl]
  | some nd => exact absurd ⟨nd, hl⟩ h

/-- The from-side half-update of `dependency`. -/
def depFrom (s : Dag V) (f t : Nat) : Dag V :=
  ⟨updateA s.graph f
    (fun nd => { nd with dependencies := insertS t nd.dependencies }),
    s.tips, s.roots.erase f⟩

/-- The to-side half-update of `dependency`. -/
def depTo (s : Dag V) (f t : Nat) : Dag V :=
  ⟨updateA s.graph t
    (fun nd => { nd with dependents := insertS f nd.dependents }),
    s.tips.erase t, s.roots⟩

/-- The state after the from-side of `dependency` (identity when `f` is
absent). -/
def dep1 (s : Dag V) (f t : Nat) : Dag V :=
  if (lookupA s.graph f).isSome then depFrom s f t else s

theorem dep_eq_halves {s : Dag V} (f t : Nat) :
    s.dependency f t =
      (if (lookupA (dep1 s f t).graph t).isSome then depTo (dep1 s f t) f t
       else dep1 s f t) := by
  unfold Dag.dependency dep1 depFrom depTo
  cases hf : lookupA s.graph f with
  | none =>
    simp only [hf, Option.isSome_none, Bool.false_eq_true, if_false]
    cases ht : lookupA s.graph t with
    | none => simp [ht]
    | some nt => simp [ht]
  | some nf =>
    simp only [hf, Option.isSome_some, if_true]
    cases ht : lookupA (updateA s.graph f
        (fun nd => { nd with dependencies := insertS t nd.dependencies })) t with
    | none => simp [ht]
    | some nt => simp [ht]

theorem keysList_depFrom {s : Dag V} {f t : Nat} :
    keysList (depFrom s f t) = keysList s := by
  unfold depFrom keysList
  exact map_fst_updateA

theorem keysList_depTo {s : Dag V} {f t : Nat} :
    keysList (depTo s f t) = keysList s := by
  unfold depTo keysList
  exact map_fst_updateA

theorem keysList_dep1 {s : Dag V} {f t : Nat} :
    keysList (dep1 s f t) = keysList s := by
  unfold dep1
  by_cases hf : (lookupA s.graph f).isSome
  · rw [if_pos hf, keysList_depFrom]
  · rw [if_neg hf]

/-- The two graph-map updates of a `dependency` call never change the key
set. -/
theorem keysList_dependency {s : Dag V} {f t : Nat} :
    keysList (s.dependency f t) = keysList s := by
  rw [dep_eq_halves]
  by_cases ht : (lookupA (dep1 s f t).graph t).isSome
  · rw [if_pos ht, keysList_depTo, keysList_dep1]
  · rw [if_neg ht, keysList_dep1]

theorem presD_dependency {s : Dag V} {f t x : Nat} :
    presD (s.dependency f t) x ↔ presD s x := by
  rw [presD_iff_mem_keys, presD_iff_mem_keys, keysList_dependency]

theorem updateA_absent {α : Type} {l : List (Nat × α)} {key : Nat}
    {g : α → α} (h : lookupA l key = none) : updateA l key g = l := by
  induction l with
  | nil => rfl
  | cons p rest ih =>
    obtain ⟨k, w⟩ := p
    by_cases hk : k = key
    · rw [lookupA, if_pos hk] at h
      exact Option.noConfusion h
    · rw [lookupA, if_neg hk] at h
      rw [updateA, if_neg hk, ih h]

theorem updateA_id {α : Type} {l : List (Nat × α)} {key : Nat} {v : α}
    {g : α → α} (hl : lookupA l key = some v) (hg : g v = v) :
    updateA l key g = l := by
  induction l with
  | nil => exact Option.noConfusion hl
  | cons p rest ih =>
    obtain ⟨k, w⟩ := p
    by_cases hk : k = key
    · rw [lookupA, if_pos hk] at hl
      injection hl with hl
      subst hl
      rw [updateA, if_pos hk, hg]
    · rw [lookupA, if_neg hk] at hl
      rw [updateA, if_neg hk, ih hl]

theorem mem_keys_insertA {α : Type} {l : List (Nat × α)} {key x : Nat}
    {v : α} : x ∈ (insertA l key v).map Prod.fst ↔
      x = key ∨ x ∈ l.map Prod.fst := by
  induction l with
  | nil => simp [insertA]
  | cons p rest ih =>
    obtain ⟨k, w⟩ := p
    rcases Nat.lt_trichotomy key k with h | h | h
    · simp only [insertA, if_pos h, List.map_cons, List.mem_cons]
    · subst h
      simp [insertA]
    · have h1 : ¬ key < k := by omega
      have h2 : ¬ key = k := by omega
      simp only [insertA, if_neg h1, if_neg h2, List.map_cons, List.mem_cons, ih]
      tauto

/-- The node-insertion step of `merge`: insert only when absent. -/
def nodeIf (s : Dag V) (k : Nat) (v : V) : Dag V :=
  if s.contains k then s else (s.node k v).1

theorem nodeIf_id {s : Dag V} {k : Nat} {v : V} (h : presD s k) :
    nodeIf s k v = s := by
  unfold nodeIf Dag.contains
  rw [if_pos (show (lookupA s.graph k).isSome = true from h)]

theorem presD_nodeIf {s : Dag V} {k x : Nat} {v : V} :
    presD (nodeIf s k v) x ↔ x = k ∨ presD s x := by
  unfold nodeIf Dag.contains
  by_cases h : (lookupA s.graph k).isSome = true
  · rw [if_pos h]
    constructor
    · exact Or.inr
    · rintro (rfl | hx)
      · exact h
      · exact hx
  · rw [if_neg h]
    rw [presD_iff_mem_keys, presD_iff_mem_keys]
    exact mem_keys_insertA

theorem presD_nodeIf_self {s : Dag V} {k : Nat} {v : V} :
    presD (nodeIf s k v) k :=
  presD_nodeIf.mpr (Or.inl rfl)

theorem depsOf_nodeIf {s : Dag V} {k x : Nat} {v : V} :
    depsOf (nodeIf s k v) x = depsOf s x := by
  unfold nodeIf Dag.contains
  by_cases h : (lookupA s.graph k).isSome = true
  · rw [if_pos h]
  · rw [if_neg h]
    by_cases hx : x = k
    · subst hx
      have habs : lookupA s.graph x = none := by
        cases hl : lookupA s.graph x with
        | none => rfl
        | some nd => rw [hl] at h; exact absurd rfl h
      rw [depsOf, depsOf, habs]
      rw [show lookupA (((s.node x v).1).graph) x =
        some ⟨v, [], []⟩ from lookupA_insertA_self]
    · rw [depsOf, depsOf,
        show lookupA (((s.node k v).1).graph) x = lookupA s.graph x from
          lookupA_insertA_ne hx]

theorem rdepsOf_nodeIf {s : Dag V} {k x : Nat} {v : V} :
    rdepsOf (nodeIf s k v) x = rdepsOf s x := by
  unfold nodeIf Dag.contains
  by_cases h : (lookupA s.graph k).isSome = true
  · rw [if_pos h]
  · rw [if_neg h]
    by_cases hx : x = k
    · subst hx
      have habs : lookupA s.graph x = none := by
        cases hl : lookupA s.graph x with
        | none => rfl
        | some nd => rw [hl] at h; exact absurd rfl h
      rw [rdepsOf, rdepsOf, habs]
      rw [show lookupA (((s.node x v).1).graph) x =
        some ⟨v, [], []⟩ from lookupA_insertA_self]
    · rw [rdepsOf, rdepsOf,
        show lookupA (((s.node k v).1).graph) x = lookupA s.graph x from
          lookupA_insertA_ne hx]

theorem roots_nodeIf {s : Dag V} {k x : Nat} {v : V} (hp : presD s x) :
    (x ∈ (nodeIf s k v).roots ↔ x ∈ s.roots) := by
  unfold nodeIf Dag.contains
  by_cases h : (lookupA s.graph k).isSome = true
  · rw [if_pos h]
  · rw [if_neg h]
    show x ∈ insertS k s.roots ↔ _
    rw [mem_insertS]
    constructor
    · rintro (rfl | hx)
      · exact absurd hp h
      · exact hx
    · exact Or.inr

theorem tips_nodeIf {s : Dag V} {k x : Nat} {v : V} (hp : presD s x) :
    (x ∈ (nodeIf s k v).tips ↔ x ∈ s.tips) := by
  unfold nodeIf Dag.contains
  by_cases h : (lookupA s.graph k).isSome = true
  · rw [if_pos h]
  · rw [if_neg h]
    show x ∈ insertS k s.tips ↔ _
    rw [mem_insertS]
    constructor
    · rintro (rfl | hx)
      · exact absurd hp h
      · exact hx
    · exact Or.inr

theorem nodup_nodeIf {s : Dag V} {k : Nat} {v : V}
    (hT : s.tips.Nodup) (hR : s.roots.Nodup) :
    (nodeIf s k v).tips.Nodup ∧ (nodeIf s k v).roots.Nodup := by
  unfold nodeIf Dag.contains
  by_cases h : (lookupA s.graph k).isSome = true
  · rw [if_pos h]
    exact ⟨hT, hR⟩
  · rw [if_neg h]
    exact ⟨insertS_nodup hT, insertS_nodup hR⟩

theorem depsOf_depFrom {s : Dag V} {f t x z : Nat} :
    z ∈ depsOf (depFrom s f t) x ↔
      z ∈ depsOf s x ∨ (x = f ∧ z = t ∧ presD s f) := by
  unfold depsOf depFrom presD
  by_cases hx : x = f
  · subst hx
    cases hf : lookupA s.graph x with
    | none =>
      rw [show lookupA (updateA s.graph x
        (fun nd => { nd with dependencies := insertS t nd.dependencies })) x =
        lookupA s.graph x from by rw [updateA_absent hf]]
      rw [hf]
      simp
    | some nf =>
      rw [lookupA_updateA_self, hf]
      show z ∈ insertS t nf.dependencies ↔
        z ∈ nf.dependencies ∨ (x = x ∧ z = t ∧ (some nf).isSome = true)
      rw [mem_insertS]
      simp only [Option.isSome_some, eq_self_iff_true, true_and, and_true]
      tauto
  · rw [lookupA_updateA_ne hx]
    simp [hx]

theorem rdepsOf_depFrom {s : Dag V} {f t x : Nat} :
    rdepsOf (depFrom s f t) x = rdepsOf s x := by
  unfold rdepsOf depFrom
  by_cases hx : x = f
  · subst hx
    cases hf : lookupA s.graph x with
    | none =>
      rw [show lookupA (updateA s.graph x
        (fun nd => { nd with dependencies := insertS t nd.dependencies })) x =
        lookupA s.graph x from by rw [updateA_absent hf]]
      rw [hf]
    | some nf =>
      rw [lookupA_updateA_self, hf]
      rfl
  · rw [lookupA_updateA_ne hx]

theorem rdepsOf_depTo {s : Dag V} {f t x z : Nat} :
    z ∈ rdepsOf (depTo s f t) x ↔
      z ∈ rdepsOf s x ∨ (x = t ∧ z = f ∧ presD s t) := by
  unfold rdepsOf depTo presD
  by_cases hx : x = t
  · subst hx
    cases ht : lookupA s.graph x with
    | none =>
      rw [show lookupA (updateA s.graph x
        (fun nd => { nd with dependents := insertS f nd.dependents })) x =
        lookupA s.graph x from by rw [updateA_absent ht]]
      rw [ht]
      simp
    | some nt =>
      rw [lookupA_updateA_self, ht]
      show z ∈ insertS f nt.dependents ↔
        z ∈ nt.dependents ∨ (x = x ∧ z = f ∧ (some nt).isSome = true)
      rw [mem_insertS]
      simp only [Option.isSome_some, eq_self_iff_true, true_and, and_true]
      tauto
  · rw [lookupA_updateA_ne hx]
    simp [hx]

theorem depsOf_depTo {s : Dag V} {f t x : Nat} :
    depsOf (depTo s f t) x = depsOf s x := by
  unfold depsOf depTo
  by_cases hx : x = t
  · subst hx
    cases ht : lookupA s.graph x with
    | none =>
      rw [show lookupA (updateA s.graph x
        (fun nd => { nd with dependents := insertS f nd.dependents })) x =
        lookupA s.graph x from by rw [updateA_absent ht]]
      rw [ht]
    | some nt =>
      rw [lookupA_updateA_self, ht]
      rfl
  · rw [lookupA_updateA_ne hx]

theorem presD_dep1 {s : Dag V} {f t x : Nat} :
    presD (dep1 s f t) x ↔ presD s x := by
  rw [presD_iff_mem_keys, presD_iff_mem_keys, keysList_dep1]

theorem dep_deps_iff {s : Dag V} {f t x z : Nat} :
    z ∈ depsOf (s.dependency f t) x ↔
      z ∈ depsOf s x ∨ (x = f ∧ z = t ∧ presD s f) := by
  rw [dep_eq_halves]
  by_cases ht : (lookupA (dep1 s f t).graph t).isSome
  · rw [if_pos ht, depsOf_depTo]
    unfold dep1
    by_cases hf : (lookupA s.graph f).isSome
    · rw [if_pos hf, depsOf_depFrom]
    · rw [if_neg hf]
      have hnf : ¬ presD s f := hf
      simp [hnf]
  · rw [if_neg ht]
    unfold dep1
    by_cases hf : (lookupA s.graph f).isSome
    · rw [if_pos hf, depsOf_depFrom]
    · rw [if_neg hf]
      have hnf : ¬ presD s f := hf
      simp [hnf]

theorem dep_rdeps_iff {s : Dag V} {f t x z : Nat} :
    z ∈ rdepsOf (s.dependency f t) x ↔
      z ∈ rdepsOf s x ∨ (x = t ∧ z = f ∧ presD s t) := by
  rw [dep_eq_halves]
  have hpr : presD (dep1 s f t) t ↔ presD s t := presD_dep1
  by_cases ht : (lookupA (dep1 s f t).graph t).isSome
  · rw [if_pos ht]
    have hst : presD s t := hpr.mp ht
    rw [rdepsOf_depTo]
    have h2 : presD (dep1 s f t) t := ht
    unfold dep1
    by_cases hf : (lookupA s.graph f).isSome
    · rw [if_pos hf, rdepsOf_depFrom]
      have h3 : presD (depFrom s f t) t ↔ presD s t := by
        rw [presD_iff_mem_keys, presD_iff_mem_keys, keysList_depFrom]
      simp only [h3]
    · rw [if_neg hf]
  · rw [if_neg ht]
    have hst : ¬ presD s t := fun h => ht (hpr.mpr h)
    unfold dep1
    by_cases hf : (lookupA s.graph f).isSome
    · rw [if_pos hf, rdepsOf_depFrom]
      simp [hst]
    · rw [if_neg hf]
      simp [hst]

theorem dep_roots_eq {s : Dag V} {f t : Nat} :
    (s.dependency f t).roots =
      if (lookupA s.graph f).isSome then s.roots.erase f else s.roots := by
  rw [dep_eq_halves]
  have hroots : (dep1 s f t).roots =
      (if (lookupA s.graph f).isSome then s.roots.erase f else s.roots) := by
    unfold dep1
    by_cases hf : (lookupA s.graph f).isSome
    · rw [if_pos hf, if_pos hf]
      rfl
    · rw [if_neg hf, if_neg hf]
  by_cases ht : (lookupA (dep1 s f t).graph t).isSome
  · rw [if_pos ht]
    show (dep1 s f t).roots = _
    exact hroots
  · rw [if_neg ht]
    exact hroots

theorem dep_tips_eq {s : Dag V} {f t : Nat} :
    (s.dependency f t).tips =
      if (lookupA s.graph t).isSome then s.tips.erase t else s.tips := by
  rw [dep_eq_halves]
  have hpr : presD (dep1 s f t) t ↔ presD s t := presD_dep1
  have htips : (dep1 s f t).tips = s.tips := by
    unfold dep1
    by_cases hf : (lookupA s.graph f).isSome
    · rw [if_pos hf]
      rfl
    · rw [if_neg hf]
  by_cases ht : (lookupA (dep1 s f t).graph t).isSome
  · rw [if_pos ht]
    have hst : (lookupA s.graph t).isSome = true := hpr.mp ht
    rw [if_pos hst]
    show (dep1 s f t).tips.erase t = _
    rw [htips]
  · rw [if_neg ht]
    have hst : ¬ (lookupA s.graph t).isSome = true := fun h => ht (hpr.mpr h)
    rw [if_neg hst, htips]

/-- One merge block: the per-key update sequence of `mergeAux` — insert the
node when absent, re-issue its dependent edges, then its dependency edges. -/
def applyBlock (s : Dag V) (p : Nat × Node V) : Dag V :=
  p.2.dependencies.foldl (fun t k => t.dependency p.1 k)
    (p.2.dependents.foldl (fun t k => t.dependency k p.1)
      (nodeIf s p.1 p.2.value))

theorem merge_reify :
    ∀ (other : Dag V) (visited queue : List Nat) (s : Dag V),
      mergeAux s other visited queue =
        (procAux other visited queue).foldl applyBlock s := by
  refine procAux.induct
    (fun other visited queue => ∀ s : Dag V,
      mergeAux s other visited queue =
        (procAux other visited queue).foldl applyBlock s)
    ?_ ?_ ?_ ?_
  · intro other visited s
    rw [mergeAux_nil, procAux_nil]
    rfl
  · intro other visited next rest hv ih s
    rw [mergeAux_mem hv, procAux_mem hv]
    exact ih s
  · intro other visited next rest hv hl ih s
    rw [mergeAux_absent hv hl, procAux_absent hv hl]
    exact ih s
  · intro other visited next rest hv nd hl ih s
    rw [mergeAux_step hv hl, procAux_step hv hl]
    simp only [List.foldl_cons]
    exact ih (applyBlock s (next, nd))

/-- The processed key/node list of a merge from its picked root. -/
def procList (other : Dag V) : List (Nat × Node V) :=
  match other.rootsF.head? with
  | none => []
  | some p => procAux other [] [p.1]

theorem merge_eq_foldl {s other : Dag V} :
    s.merge other = (procList other).foldl applyBlock s := by
  unfold Dag.merge procList
  cases h : other.rootsF.head? with
  | none => rfl
  | some p =>
    obtain ⟨r, nd⟩ := p
    exact merge_reify other [] [r] s

theorem lookupA_removeA_ne {α : Type} {l : List (Nat × α)} {key j : Nat}
    (hj : j ≠ key) : lookupA (removeA l key) j = lookupA l j := by
  induction l with
  | nil => rfl
  | cons p rest ih =>
    obtain ⟨k, w⟩ := p
    by_cases hk : k = key
    · subst hk
      rw [removeA, if_pos rfl, lookupA,
        if_neg (fun h => hj h.symm)]
    · rw [removeA, if_neg hk, lookupA, lookupA]
      by_cases hkj : k = j
      · rw [if_pos hkj, if_pos hkj]
      · rw [if_neg hkj, if_neg hkj, ih]

theorem procAux_entries (o0 : Dag V) :
    ∀ (other : Dag V) (visited queue : List Nat),
      (∀ k, k ∉ visited → lookupA other.graph k = lookupA o0.graph k) →
      ∀ p ∈ procAux other visited queue,
        lookupA o0.graph p.1 = some p.2 ∧ p.1 ∉ visited := by
  refine procAux.induct
    (fun other visited queue =>
      (∀ k, k ∉ visited → lookupA other.graph k = lookupA o0.graph k) →
      ∀ p ∈ procAux other visited queue,
        lookupA o0.graph p.1 = some p.2 ∧ p.1 ∉ visited)
    ?_ ?_ ?_ ?_
  · intro other visited hAg p hp
    rw [procAux_nil] at hp
    simp at hp
  · intro other visited next rest hv ih hAg p hp
    rw [procAux_mem hv] at hp
    exact ih hAg p hp
  · intro other visited next rest hv hl ih hAg p hp
    rw [procAux_absent hv hl] at hp
    have hAg' : ∀ k, k ∉ insertS next visited →
        lookupA other.graph k = lookupA o0.graph k := by
      intro k hk
      exact hAg k (fun h => hk (subset_insertS h))
    obtain ⟨h1, h2⟩ := ih hAg' p hp
    exact ⟨h1, fun h => h2 (subset_insertS h)⟩
  · intro other visited next rest hv nd hl ih hAg p hp
    rw [procAux_step hv hl] at hp
    rcases List.mem_cons.mp hp with rfl | hp
    · refine ⟨?_, hv⟩
      rw [← hAg next hv]
      exact hl
    · have hAg' : ∀ k, k ∉ insertS next visited →
          lookupA ({ other with graph := removeA other.graph next } : Dag V).graph k =
            lookupA o0.graph k := by
        intro k hk
        have hkn : k ≠ next := fun h => hk (h ▸ mem_insertS_self)
        show lookupA (removeA other.graph next) k = _
        rw [lookupA_removeA_ne hkn]
        exact hAg k (fun h => hk (subset_insertS h))
      obtain ⟨h1, h2⟩ := ih hAg' p hp
      exact ⟨h1, fun h => h2 (subset_insertS h)⟩

theorem procList_entries {b : Dag V} :
    ∀ p ∈ procList b, lookupA b.graph p.1 = some p.2 := by
  intro p hp
  unfold procList at hp
  cases h : b.rootsF.head? with
  | none =>
    rw [h] at hp
    simp at hp
  | some q =>
    rw [h] at hp
    exact (procAux_entries b b [] [q.1] (fun k _ => rfl) p hp).1

theorem foldl_pres {β : Type} {P : Dag V → Prop} {g : Dag V → β → Dag V}
    (hg : ∀ s x, P s → P (g s x)) :
    ∀ (l : List β) (s : Dag V), P s → P (l.foldl g s) := by
  intro l
  induction l with
  | nil => intro s hs; exact hs
  | cons x xs ih =>
    intro s hs
    exact ih (g s x) (hg s x hs)

theorem applyBlock_pres {P : Dag V → Prop}
    (hdep : ∀ s (f t : Nat), P s → P (s.dependency f t))
    (hnode : ∀ s (k : Nat) (v : V), P s → P (nodeIf s k v)) :
    ∀ (s : Dag V) (p : Nat × Node V), P s → P (applyBlock s p) := by
  intro s p hs
  unfold applyBlock
  apply foldl_pres (fun u x hu => hdep u p.1 x hu)
  apply foldl_pres (fun u x hu => hdep u x p.1 hu)
  exact hnode s p.1 p.2.value hs

/-- Fact pack that persists through later merge blocks. -/
theorem pres_persist {k : Nat} :
    (∀ (s : Dag V) (f t : Nat), presD s k → presD (s.dependency f t) k) ∧
    (∀ (s : Dag V) (j : Nat) (v : V), presD s k → presD (nodeIf s j v) k) :=
  ⟨fun s f t h => presD_dependency.mpr h,
   fun s j v h => presD_nodeIf.mpr (Or.inr h)⟩

theorem depsMem_persist {k z : Nat} :
    (∀ (s : Dag V) (f t : Nat), z ∈ depsOf s k → z ∈ depsOf (s.dependency f t) k) ∧
    (∀ (s : Dag V) (j : Nat) (v : V), z ∈ depsOf s k → z ∈ depsOf (nodeIf s j v) k) :=
  ⟨fun s f t h => dep_deps_iff.mpr (Or.inl h),
   fun s j v h => by rw [depsOf_nodeIf]; exact h⟩

theorem rdepsMem_persist {k z : Nat} :
    (∀ (s : Dag V) (f t : Nat), z ∈ rdepsOf s k → z ∈ rdepsOf (s.dependency f t) k) ∧
    (∀ (s : Dag V) (j : Nat) (v : V), z ∈ rdepsOf s k → z ∈ rdepsOf (nodeIf s j v) k) :=
  ⟨fun s f t h => dep_rdeps_iff.mpr (Or.inl h),
   fun s j v h => by rw [rdepsOf_nodeIf]; exact h⟩

theorem notRoots_persist {k : Nat} :
    (∀ (s : Dag V) (f t : Nat), presD s k ∧ k ∉ s.roots →
      presD (s.dependency f t) k ∧ k ∉ (s.dependency f t).roots) ∧
    (∀ (s : Dag V) (j : Nat) (v : V), presD s k ∧ k ∉ s.roots →
      presD (nodeIf s j v) k ∧ k ∉ (nodeIf s j v).roots) := by
  constructor
  · intro s f t ⟨hp, hr⟩
    refine ⟨presD_dependency.mpr hp, ?_⟩
    rw [dep_roots_eq]
    by_cases hf : (lookupA s.graph f).isSome
    · rw [if_pos hf]
      intro h
      exact hr (List.mem_of_mem_erase h)
    · rw [if_neg hf]
      exact hr
  · intro s j v ⟨hp, hr⟩
    refine ⟨presD_nodeIf.mpr (Or.inr hp), ?_⟩
    rw [roots_nodeIf hp]
    exact hr

theorem notTips_persist {k : Nat} :
    (∀ (s : Dag V) (f t : Nat), presD s k ∧ k ∉ s.tips →
      presD (s.dependency f t) k ∧ k ∉ (s.dependency f t).tips) ∧
    (∀ (s : Dag V) (j : Nat) (v : V), presD s k ∧ k ∉ s.tips →
      presD (nodeIf s j v) k ∧ k ∉ (nodeIf s j v).tips) := by
  constructor
  · intro s f t ⟨hp, hr⟩
    refine ⟨presD_dependency.mpr hp, ?_⟩
    rw [dep_tips_eq]
    by_cases hf : (lookupA s.graph t).isSome
    · rw [if_pos hf]
      intro h
      exact hr (List.mem_of_mem_erase h)
    · rw [if_neg hf]
      exact hr
  · intro s j v ⟨hp, hr⟩
    refine ⟨presD_nodeIf.mpr (Or.inr hp), ?_⟩
    rw [tips_nodeIf hp]
    exact hr

/-- Nodup-ness of the cached tip/root lists. -/
def NodupTR (s : Dag V) : Prop := s.tips.Nodup ∧ s.roots.Nodup

theorem nodupTR_dep {s : Dag V} {f t : Nat} (h : NodupTR s) :
    NodupTR (s.dependency f t) := by
  obtain ⟨hT, hR⟩ := h
  constructor
  · rw [dep_tips_eq]
    by_cases ht : (lookupA s.graph t).isSome
    · rw [if_pos ht]
      exact hT.erase t
    · rw [if_neg ht]
      exact hT
  · rw [dep_roots_eq]
    by_cases hf : (lookupA s.graph f).isSome
    · rw [if_pos hf]
      exact hR.erase f
    · rw [if_neg hf]
      exact hR

theorem nodupTR_nodeIf {s : Dag V} {k : Nat} {v : V} (h : NodupTR s) :
    NodupTR (nodeIf s k v) :=
  nodup_nodeIf h.1 h.2

theorem nodupTR_applyBlock {s : Dag V} {p : Nat × Node V} (h : NodupTR s) :
    NodupTR (applyBlock s p) :=
  applyBlock_pres (fun s f t hs => nodupTR_dep hs)
    (fun s k v hs => nodupTR_nodeIf hs) s p h

theorem est_rdeps_foldl {k : Nat} :
    ∀ (L : List Nat) (s : Dag V), presD s k →
      ∀ y ∈ L, y ∈ rdepsOf (L.foldl (fun t j => t.dependency j k) s) k := by
  intro L
  induction L with
  | nil => intro s hp y hy; simp at hy
  | cons y0 L ih =>
    intro s hp y hy
    simp only [List.foldl_cons]
    rcases List.mem_cons.mp hy with rfl | hy
    · have h0 : y ∈ rdepsOf (s.dependency y k) k :=
        dep_rdeps_iff.mpr (Or.inr ⟨rfl, rfl, hp⟩)
      exact foldl_pres (P := fun u => y ∈ rdepsOf u k)
        (fun u x hu => dep_rdeps_iff.mpr (Or.inl hu)) L _ h0
    · exact ih (s.dependency y0 k) (presD_dependency.mpr hp) y hy

theorem est_notTips_foldl {k : Nat} :
    ∀ (L : List Nat) (s : Dag V), presD s k → s.tips.Nodup → L ≠ [] →
      k ∉ (L.foldl (fun t j => t.dependency j k) s).tips := by
  intro L
  cases L with
  | nil => intro s _ _ h; exact absurd rfl h
  | cons y0 L =>
    intro s hp hT _
    simp only [List.foldl_cons]
    have h0 : presD (s.dependency y0 k) k ∧ k ∉ (s.dependency y0 k).tips := by
      refine ⟨presD_dependency.mpr hp, ?_⟩
      rw [dep_tips_eq, if_pos (show (lookupA s.graph k).isSome = true from hp)]
      intro h
      exact absurd ((hT.mem_erase_iff).mp h).1 (by simp)
    exact (foldl_pres (fun u x hu => (notTips_persist).1 u x k hu) L _ h0).2

theorem est_deps_foldl {k : Nat} :
    ∀ (L : List Nat) (s : Dag V), presD s k →
      ∀ y ∈ L, y ∈ depsOf (L.foldl (fun t j => t.dependency k j) s) k := by
  intro L
  induction L with
  | nil => intro s hp y hy; simp at hy
  | cons y0 L ih =>
    intro s hp y hy
    simp only [List.foldl_cons]
    rcases List.mem_cons.mp hy with rfl | hy
    · have h0 : y ∈ depsOf (s.dependency k y) k :=
        dep_deps_iff.mpr (Or.inr ⟨rfl, rfl, hp⟩)
      exact foldl_pres (P := fun u => y ∈ depsOf u k)
        (fun u x hu => dep_deps_iff.mpr (Or.inl hu)) L _ h0
    · exact ih (s.dependency k y0) (presD_dependency.mpr hp) y hy

theorem est_notRoots_foldl {k : Nat} :
    ∀ (L : List Nat) (s : Dag V), presD s k → s.roots.Nodup → L ≠ [] →
      k ∉ (L.foldl (fun t j => t.dependency k j) s).roots := by
  intro L
  cases L with
  | nil => intro s _ _ h; exact absurd rfl h
  | cons y0 L =>
    intro s hp hR _
    simp only [List.foldl_cons]
    have h0 : presD (s.dependency k y0) k ∧ k ∉ (s.dependency k y0).roots := by
      refine ⟨presD_dependency.mpr hp, ?_⟩
      rw [dep_roots_eq, if_pos (show (lookupA s.graph k).isSome = true from hp)]
      intro h
      exact absurd ((hR.mem_erase_iff).mp h).1 (by simp)
    exact (foldl_pres (fun u x hu => (notRoots_persist).1 u k x hu) L _ h0).2

theorem blocks_presD {k : Nat} (L : List (Nat × Node V)) (s : Dag V)
    (h : presD s k) : presD (L.foldl applyBlock s) k :=
  foldl_pres (fun s p hs =>
    applyBlock_pres (pres_persist).1 (pres_persist).2 s p hs) L s h

theorem blocks_depsMem {k z : Nat} (L : List (Nat × Node V)) (s : Dag V)
    (h : z ∈ depsOf s k) : z ∈ depsOf (L.foldl applyBlock s) k :=
  foldl_pres (fun s p hs =>
    applyBlock_pres (depsMem_persist).1 (depsMem_persist).2 s p hs) L s h

theorem blocks_rdepsMem {k z : Nat} (L : List (Nat × Node V)) (s : Dag V)
    (h : z ∈ rdepsOf s k) : z ∈ rdepsOf (L.foldl applyBlock s) k :=
  foldl_pres (fun s p hs =>
    applyBlock_pres (rdepsMem_persist).1 (rdepsMem_persist).2 s p hs) L s h

theorem blocks_notRoots {k : Nat} (L : List (Nat × Node V)) (s : Dag V)
    (h : presD s k ∧ k ∉ s.roots) :
    presD (L.foldl applyBlock s) k ∧ k ∉ (L.foldl applyBlock s).roots :=
  foldl_pres (fun s p hs =>
    applyBlock_pres (notRoots_persist).1 (notRoots_persist).2 s p hs) L s h

theorem blocks_notTips {k : Nat} (L : List (Nat × Node V)) (s : Dag V)
    (h : presD s k ∧ k ∉ s.tips) :
    presD (L.foldl applyBlock s) k ∧ k ∉ (L.foldl applyBlock s).tips :=
  foldl_pres (fun s p hs =>
    applyBlock_pres (notTips_persist).1 (notTips_persist).2 s p hs) L s h

theorem blocks_nodupTR (L : List (Nat × Node V)) (s : Dag V)
    (h : NodupTR s) : NodupTR (L.foldl applyBlock s) :=
  foldl_pres (fun s p hs => nodupTR_applyBlock hs) L s h

/-- Facts established for each processed entry by its own merge block and
persisting to the end of the merge. -/
theorem merge_facts :
    ∀ (L : List (Nat × Node V)) (a : Dag V), NodupTR a →
      ∀ p ∈ L,
        presD (L.foldl applyBlock a) p.1 ∧
        (∀ y ∈ p.2.dependencies, y ∈ depsOf (L.foldl applyBlock a) p.1) ∧
        (p.2.dependencies ≠ [] → p.1 ∉ (L.foldl applyBlock a).roots) ∧
        (∀ y ∈ p.2.dependents, y ∈ rdepsOf (L.foldl applyBlock a) p.1) ∧
        (p.2.dependents ≠ [] → p.1 ∉ (L.foldl applyBlock a).tips) := by
  intro L
  induction L with
  | nil =>
    intro a _ p hp
    simp at hp
  | cons q L ih =>
    intro a hnd p hp
    simp only [List.foldl_cons]
    rcases List.mem_cons.mp hp with rfl | hp
    · obtain ⟨k, nd⟩ := p
      have h0 : presD (nodeIf a k nd.value) k := presD_nodeIf_self
      have hnd0 : NodupTR (nodeIf a k nd.value) := nodupTR_nodeIf hnd
      set s1 := nd.dependents.foldl (fun t j => t.dependency j k)
        (nodeIf a k nd.value) with hs1
      have h1p : presD s1 k :=
        foldl_pres (fun u x hu => (pres_persist).1 u x k hu) _ _ h0
      have hnd1 : NodupTR s1 :=
        foldl_pres (fun u x hu => nodupTR_dep hu) _ _ hnd0
      have h1r : ∀ y ∈ nd.dependents, y ∈ rdepsOf s1 k :=
        est_rdeps_foldl nd.dependents (nodeIf a k nd.value) h0
      have h1t : nd.dependents ≠ [] → k ∉ s1.tips :=
        fun hne => est_notTips_foldl nd.dependents (nodeIf a k nd.value) h0
          hnd0.1 hne
      set s2 := nd.dependencies.foldl (fun t j => t.dependency k j) s1 with hs2
      have h2p : presD s2 k :=
        foldl_pres (fun u x hu => (pres_persist).1 u k x hu) _ _ h1p
      have h2d : ∀ y ∈ nd.dependencies, y ∈ depsOf s2 k :=
        est_deps_foldl nd.dependencies s1 h1p
      have h2ro : nd.dependencies ≠ [] → k ∉ s2.roots :=
        fun hne => est_notRoots_foldl nd.dependencies s1 h1p hnd1.2 hne
      have h2r : ∀ y ∈ nd.dependents, y ∈ rdepsOf s2 k := by
        intro y hy
        exact foldl_pres (P := fun u => y ∈ rdepsOf u k)
          (fun u x hu => dep_rdeps_iff.mpr (Or.inl hu)) _ _ (h1r y hy)
      have h2t : nd.dependents ≠ [] → k ∉ s2.tips := by
        intro hne
        exact (foldl_pres (fun u x hu => (notTips_persist).1 u k x hu) _ _
          ⟨h1p, h1t hne⟩).2
      have hblock : applyBlock a (k, nd) = s2 := rfl
      rw [hblock]
      refine ⟨blocks_presD L s2 h2p, ?_, ?_, ?_, ?_⟩
      · intro y hy
        exact blocks_depsMem L s2 (h2d y hy)
      · intro hne
        exact (blocks_notRoots L s2 ⟨h2p, h2ro hne⟩).2
      · intro y hy
        exact blocks_rdepsMem L s2 (h2r y hy)
      · intro hne
        exact (blocks_notTips L s2 ⟨h2p, h2t hne⟩).2
    · exact ih (applyBlock a q) (nodupTR_applyBlock hnd) p hp

/-- A `dependency` call whose effects are already recorded leaves the state
untouched, including at the representation level. -/
theorem dep_id {s : Dag V} {f t : Nat}
    (hfrom : presD s f → t ∈ depsOf s f ∧ f ∉ s.roots)
    (hto : presD s t → f ∈ rdepsOf s t ∧ t ∉ s.tips) :
    s.dependency f t = s := by
  rw [dep_eq_halves]
  have h1 : dep1 s f t = s := by
    unfold dep1
    by_cases hf : (lookupA s.graph f).isSome
    · rw [if_pos hf]
      obtain ⟨hdep, hroot⟩ := hfrom hf
      obtain ⟨nf, hnf⟩ := Option.isSome_iff_exists.mp hf
      have hmem : t ∈ nf.dependencies := by
        rw [depsOf, hnf] at hdep
        exact hdep
      have hgnf : (fun nd => ({ nd with
          dependencies := insertS t nd.dependencies } : Node V)) nf = nf := by
        simp only [insertS_of_mem hmem]
      unfold depFrom
      rw [updateA_id hnf hgnf, List.erase_of_not_mem hroot]
    · rw [if_neg hf]
  rw [h1]
  by_cases ht : (lookupA s.graph t).isSome
  · rw [if_pos ht]
    obtain ⟨hrdep, htip⟩ := hto ht
    obtain ⟨nt, hnt⟩ := Option.isSome_iff_exists.mp ht
    have hmem : f ∈ nt.dependents := by
      rw [rdepsOf, hnt] at hrdep
      exact hrdep
    have hgnt : (fun nd => ({ nd with
        dependents := insertS f nd.dependents } : Node V)) nt = nt := by
      simp only [insertS_of_mem hmem]
    unfold depTo
    rw [updateA_id hnt hgnt, List.erase_of_not_mem htip]
  · rw [if_neg ht]

theorem foldl_id {β : Type} {g : Dag V → β → Dag V} :
    ∀ (l : List β) (s : Dag V), (∀ x ∈ l, g s x = s) → l.foldl g s = s := by
  intro l
  induction l with
  | nil => intro s _; rfl
  | cons x xs ih =>
    intro s h
    simp only [List.foldl_cons, h x (List.mem_cons_self _ _)]
    exact ih s (fun y hy => h y (List.mem_cons_of_mem _ hy))

/-- Symmetry of a graph's edge records: every recorded dependency has its
matching dependent record on a present node, and conversely. -/
def symmB (b : Dag V) : Bool :=
  b.graph.all (fun p =>
    (p.2.dependencies.all (fun y =>
      match lookupA b.graph y with
      | some ny => decide (p.1 ∈ ny.dependents)
      | none => false)) &&
    (p.2.dependents.all (fun y =>
      match lookupA b.graph y with
      | some ny => decide (p.1 ∈ ny.dependencies)
      | none => false)))

theorem symmB_deps {b : Dag V} (h : symmB b = true) {k y : Nat} {nd : Node V}
    (hk : lookupA b.graph k = some nd) (hy : y ∈ nd.dependencies) :
    ∃ ny, lookupA b.graph y = some ny ∧ k ∈ ny.dependents := by
  rw [symmB, List.all_eq_true] at h
  have h2 := h (k, nd) (lookupA_entry_mem hk)
  rw [Bool.and_eq_true, List.all_eq_true] at h2
  have h3 := h2.1 y hy
  cases hl : lookupA b.graph y with
  | none =>
    rw [hl] at h3
    exact Bool.noConfusion h3
  | some ny =>
    rw [hl] at h3
    exact ⟨ny, rfl, of_decide_eq_true h3⟩

theorem symmB_rdeps {b : Dag V} (h : symmB b = true) {k y : Nat} {nd : Node V}
    (hk : lookupA b.graph k = some nd) (hy : y ∈ nd.dependents) :
    ∃ ny, lookupA b.graph y = some ny ∧ k ∈ ny.dependencies := by
  rw [symmB, List.all_eq_true] at h
  have h2 := h (k, nd) (lookupA_entry_mem hk)
  rw [Bool.and_eq_true, List.all_eq_true, List.all_eq_true] at h2
  have h3 := h2.2 y hy
  cases hl : lookupA b.graph y with
  | none =>
    rw [hl] at h3
    exact Bool.noConfusion h3
  | some ny =>
    rw [hl] at h3
    exact ⟨ny, rfl, of_decide_eq_true h3⟩

/-- Every key of the graph is processed by the merge traversal from the
picked root (the graph is a single component reachable from it). -/
def completeB (b : Dag V) : Bool :=
  (keysList b).all (fun k => decide (k ∈ (procList b).map Prod.fst))

theorem completeB_spec {b : Dag V} (h : completeB b = true) {k : Nat}
    (hk : k ∈ keysList b) : ∃ nd, (k, nd) ∈ procList b := by
  rw [completeB, List.all_eq_true] at h
  have h2 := of_decide_eq_true (h k hk)
  obtain ⟨p, hp, hpk⟩ := List.mem_map.mp h2
  exact ⟨p.2, by rw [show ((k, p.2) : Nat × Node V) = p from by
    rw [← hpk]]; exact hp⟩

end MergeMachinery

/-! ## Claim C4: idempotence of `Dag::merge` -/

/-- Claim C4 as amended: for a graph `b` whose edge records are symmetric
(with both endpoints present) and which is entirely processed by the merge
traversal from its picked root, merging `b` twice into any graph `a` with
duplicate-free tip/root caches gives exactly the same state as merging it
once. -/
theorem claim_C4 {V : Type} (a b : Dag V) (hT : a.tips.Nodup)
    (hR : a.roots.Nodup) (hsym : symmB b = true)
    (hcomp : completeB b = true) :
    (a.merge b).merge b = a.merge b := by
  rw [show a.merge b = (procList b).foldl applyBlock a from merge_eq_foldl,
    show ((procList b).foldl applyBlock a).merge b =
      (procList b).foldl applyBlock ((procList b).foldl applyBlock a) from
      merge_eq_foldl]
  apply foldl_id
  intro p hp
  obtain ⟨k, nd⟩ := p
  have hkb : lookupA b.graph k = some nd := procList_entries _ hp
  obtain ⟨hkpres, hdeps, hroots, hrdeps, htips⟩ :=
    merge_facts (procList b) a ⟨hT, hR⟩ (k, nd) hp
  show nd.dependencies.foldl
    (fun t j => t.dependency k j)
    (nd.dependents.foldl (fun t j => t.dependency j k)
      (nodeIf ((procList b).foldl applyBlock a) k nd.value)) =
    (procList b).foldl applyBlock a
  rw [nodeIf_id hkpres]
  have hinner : nd.dependents.foldl (fun t j => t.dependency j k)
      ((procList b).foldl applyBlock a) = (procList b).foldl applyBlock a := by
    apply foldl_id
    intro y hy
    apply dep_id
    · intro _
      obtain ⟨ny, hny, hkdeps⟩ := symmB_rdeps hsym hkb hy
      obtain ⟨ny2, hny2⟩ := completeB_spec hcomp (lookupA_mem_keys hny)
      have heq := procList_entries _ hny2
      rw [hny] at heq
      injection heq with heq
      subst heq
      obtain ⟨hp2, hd2, hr2, _, _⟩ :=
        merge_facts (procList b) a ⟨hT, hR⟩ (y, ny) hny2
      refine ⟨hd2 k hkdeps, hr2 ?_⟩
      intro hnil
      rw [hnil] at hkdeps
      simp at hkdeps
    · intro _
      refine ⟨hrdeps y hy, htips ?_⟩
      intro hnil
      rw [hnil] at hy
      simp at hy
  rw [hinner]
  apply foldl_id
  intro y hy
  apply dep_id
  · intro _
    refine ⟨hdeps y hy, hroots ?_⟩
    intro hnil
    rw [hnil] at hy
    simp at hy
  · intro _
    obtain ⟨ny, hny, hkrdeps⟩ := symmB_deps hsym hkb hy
    obtain ⟨ny2, hny2⟩ := completeB_spec hcomp (lookupA_mem_keys hny)
    have heq := procList_entries _ hny2
    rw [hny] at heq
    injection heq with heq
    subst heq
    obtain ⟨hp2, _, _, hr2, ht2⟩ :=
      merge_facts (procList b) a ⟨hT, hR⟩ (y, ny) hny2
    refine ⟨hr2 k hkrdeps, ht2 ?_⟩
    intro hnil
    rw [hnil] at hkrdeps
    simp at hkrdeps

/-- Counterexample graph for C4 as stated: built by node/dependency calls
only, a single connected component fully processed by the merge traversal
from its sole root 0, but with an asymmetric edge record — `dependency 1 2`
was issued while key 2 was absent, so node 1 records dependency 2 while the
later-inserted node 2 records no dependent. -/
def dagC4b : Dag Nat :=
  (((((Dag.new Nat).node 0 10).1.node 1 11).1.dependency 1 2).node 2
    12).1.dependency 1 0 |>.dependency 2 0

/-- Claim C4 is false as stated: `dagC4b` is one connected component whose
merge traversal from its root processes every key, yet merging it twice
into the empty DAG differs from merging it once — the second merge re-issues
`dependency 1 2` with key 2 now present, adding dependent 1 to node 2 and
erasing 2 from the tips. -/
theorem claim_C4_counterexample :
    procKeys dagC4b = [0, 1, 2] ∧
    ((Dag.new Nat).merge dagC4b).merge dagC4b ≠ (Dag.new Nat).merge dagC4b := by
  constructor
  · simp [procKeys, dagC4b, Dag.new, Dag.node, Dag.dependency, Dag.rootsF,
      lookupA, insertA, updateA, insertS, insertAsc, removeA, procAux]
  · simp [Dag.merge, dagC4b, Dag.new, Dag.node, Dag.dependency, Dag.rootsF,
      lookupA, insertA, updateA, insertS, insertAsc, removeA, mergeAux,
      Dag.contains]

/-- Witness graph for C4: two nodes with a symmetric dependency record,
fully reachable from the single root 0. -/
def dagC4w : Dag Nat := ((Dag.root 0 10).node 1 11).1.dependency 1 0

/-- Witness instantiating `claim_C4`: merging `dagC4w` twice into the empty
DAG equals merging it once, with every hypothesis discharged concretely. -/
theorem claim_C4_witness :
    (Dag.new Nat).tips.Nodup ∧ (Dag.new Nat).roots.Nodup ∧
    symmB dagC4w = true ∧ completeB dagC4w = true ∧
    ((Dag.new Nat).merge dagC4w).merge dagC4w = (Dag.new Nat).merge dagC4w := by
  have hc : completeB dagC4w = true := by
    simp [completeB, procList, keysList, dagC4w, Dag.root, Dag.node,
      Dag.dependency, Dag.rootsF, lookupA, insertA, updateA, insertS,
      insertAsc, removeA, procAux]
  exact ⟨by decide, by decide, by decide, hc,
    claim_C4 (Dag.new Nat) dagC4w (by decide) (by decide) (by decide) hc⟩

/-! ## Claim C5: commutativity of `Dag::merge` at the observable level -/

section ClaimC5Machinery

variable {V : Type}

theorem mem_depsOf_iff {s : Dag V} {x z : Nat} :
    z ∈ depsOf s x ↔ ∃ nx, lookupA s.graph x = some nx ∧ z ∈ nx.dependencies := by
  cases hl : lookupA s.graph x with
  | none => simp [depsOf, hl]
  | some nd => simp [depsOf, hl]

theorem mem_rdepsOf_iff {s : Dag V} {x z : Nat} :
    z ∈ rdepsOf s x ↔ ∃ nx, lookupA s.graph x = some nx ∧ z ∈ nx.dependents := by
  cases hl : lookupA s.graph x with
  | none => simp [rdepsOf, hl]
  | some nd => simp [rdepsOf, hl]

theorem presD_depFoldl {x : Nat} {g : Dag V → Nat → Dag V}
    (hg : ∀ (s : Dag V) (j : Nat), presD (g s j) x ↔ presD s x) :
    ∀ (l : List Nat) (s : Dag V), presD (l.foldl g s) x ↔ presD s x := by
  intro l
  induction l with
  | nil => intro s; exact Iff.rfl
  | cons j js ih =>
    intro s
    simp only [List.foldl_cons]
    rw [ih, hg]

theorem depsOf_foldl_from {k x z : Nat} :
    ∀ (l : List Nat) (s : Dag V),
      z ∈ depsOf (l.foldl (fun t j => t.dependency k j) s) x →
      z ∈ depsOf s x ∨ (x = k ∧ z ∈ l) := by
  intro l
  induction l with
  | nil => intro s h; exact Or.inl h
  | cons j js ih =>
    intro s h
    simp only [List.foldl_cons] at h
    rcases ih _ h with h2 | ⟨rfl, hz⟩
    · rcases dep_deps_iff.mp h2 with h3 | ⟨rfl, rfl, _⟩
      · exact Or.inl h3
      · exact Or.inr ⟨rfl, List.mem_cons_self _ _⟩
    · exact Or.inr ⟨rfl, List.mem_cons_of_mem _ hz⟩

theorem depsOf_foldl_to {k x z : Nat} :
    ∀ (l : List Nat) (s : Dag V),
      z ∈ depsOf (l.foldl (fun t j => t.dependency j k) s) x →
      z ∈ depsOf s x ∨ (x ∈ l ∧ z = k) := by
  intro l
  induction l with
  | nil => intro s h; exact Or.inl h
  | cons j js ih =>
    intro s h
    simp only [List.foldl_cons] at h
    rcases ih _ h with h2 | ⟨hx, rfl⟩
    · rcases dep_deps_iff.mp h2 with h3 | ⟨rfl, rfl, _⟩
      · exact Or.inl h3
      · exact Or.inr ⟨List.mem_cons_self _ _, rfl⟩
    · exact Or.inr ⟨List.mem_cons_of_mem _ hx, rfl⟩

theorem rdepsOf_foldl_from {k x z : Nat} :
    ∀ (l : List Nat) (s : Dag V),
      z ∈ rdepsOf (l.foldl (fun t j => t.dependency k j) s) x →
      z ∈ rdepsOf s x ∨ (x ∈ l ∧ z = k) := by
  intro l
  induction l with
  | nil => intro s h; exact Or.inl h
  | cons j js ih =>
    intro s h
    simp only [List.foldl_cons] at h
    rcases ih _ h with h2 | ⟨hx, rfl⟩
    · rcases dep_rdeps_iff.mp h2 with h3 | ⟨rfl, rfl, _⟩
      · exact Or.inl h3
      · exact Or.inr ⟨List.mem_cons_self _ _, rfl⟩
    · exact Or.inr ⟨List.mem_cons_of_mem _ hx, rfl⟩

theorem rdepsOf_foldl_to {k x z : Nat} :
    ∀ (l : List Nat) (s : Dag V),
      z ∈ rdepsOf (l.foldl (fun t j => t.dependency j k) s) x →
      z ∈ rdepsOf s x ∨ (x = k ∧ z ∈ l) := by
  intro l
  induction l with
  | nil => intro s h; exact Or.inl h
  | cons j js ih =>
    intro s h
    simp only [List.foldl_cons] at h
    rcases ih _ h with h2 | ⟨rfl, hz⟩
    · rcases dep_rdeps_iff.mp h2 with h3 | ⟨rfl, rfl, _⟩
      · exact Or.inl h3
      · exact Or.inr ⟨rfl, List.mem_cons_self _ _⟩
    · exact Or.inr ⟨rfl, List.mem_cons_of_mem _ hz⟩

theorem applyBlock_presD_sub {s : Dag V} {p : Nat × Node V} {x : Nat}
    (h : presD (applyBlock s p) x) : presD s x ∨ x = p.1 := by
  unfold applyBlock at h
  rw [presD_depFoldl (fun s j => presD_dependency),
    presD_depFoldl (fun s j => presD_dependency)] at h
  rcases presD_nodeIf.mp h with hx | hs
  · exact Or.inr hx
  · exact Or.inl hs

theorem applyBlock_deps_sub {s : Dag V} {p : Nat × Node V} {x z : Nat}
    (h : z ∈ depsOf (applyBlock s p) x) :
    z ∈ depsOf s x ∨ (x = p.1 ∧ z ∈ p.2.dependencies) ∨
      (x ∈ p.2.dependents ∧ z = p.1) := by
  unfold applyBlock at h
  rcases depsOf_foldl_from _ _ h with h1 | hx
  · rcases depsOf_foldl_to _ _ h1 with h2 | hx
    · rw [depsOf_nodeIf] at h2
      exact Or.inl h2
    · exact Or.inr (Or.inr hx)
  · exact Or.inr (Or.inl hx)

theorem applyBlock_rdeps_sub {s : Dag V} {p : Nat × Node V} {x z : Nat}
    (h : z ∈ rdepsOf (applyBlock s p) x) :
    z ∈ rdepsOf s x ∨ (x = p.1 ∧ z ∈ p.2.dependents) ∨
      (x ∈ p.2.dependencies ∧ z = p.1) := by
  unfold applyBlock at h
  rcases rdepsOf_foldl_from _ _ h with h1 | hx
  · rcases rdepsOf_foldl_to _ _ h1 with h2 | hx
    · rw [rdepsOf_nodeIf] at h2
      exact Or.inl h2
    · exact Or.inr (Or.inl hx)
  · exact Or.inr (Or.inr hx)

theorem blocks_presD_sub {x : Nat} :
    ∀ (L : List (Nat × Node V)) (s : Dag V), presD (L.foldl applyBlock s) x →
      presD s x ∨ ∃ p ∈ L, p.1 = x := by
  intro L
  induction L with
  | nil => intro s h; exact Or.inl h
  | cons p L ih =>
    intro s h
    simp only [List.foldl_cons] at h
    rcases ih _ h with h1 | ⟨q, hq, hqx⟩
    · rcases applyBlock_presD_sub h1 with h2 | hx
      · exact Or.inl h2
      · exact Or.inr ⟨p, List.mem_cons_self _ _, hx.symm⟩
    · exact Or.inr ⟨q, List.mem_cons_of_mem _ hq, hqx⟩

theorem blocks_deps_sub {x z : Nat} :
    ∀ (L : List (Nat × Node V)) (s : Dag V), z ∈ depsOf (L.foldl applyBlock s) x →
      z ∈ depsOf s x ∨ ∃ p ∈ L,
        (x = p.1 ∧ z ∈ p.2.dependencies) ∨ (x ∈ p.2.dependents ∧ z = p.1) := by
  intro L
  induction L with
  | nil => intro s h; exact Or.inl h
  | cons p L ih =>
    intro s h
    simp only [List.foldl_cons] at h
    rcases ih _ h with h1 | ⟨q, hq, hcase⟩
    · rcases applyBlock_deps_sub h1 with h2 | hcase
      · exact Or.inl h2
      · exact Or.inr ⟨p, List.mem_cons_self _ _, hcase⟩
    · exact Or.inr ⟨q, List.mem_cons_of_mem _ hq, hcase⟩

theorem blocks_rdeps_sub {x z : Nat} :
    ∀ (L : List (Nat × Node V)) (s : Dag V), z ∈ rdepsOf (L.foldl applyBlock s) x →
      z ∈ rdepsOf s x ∨ ∃ p ∈ L,
        (x = p.1 ∧ z ∈ p.2.dependents) ∨ (x ∈ p.2.dependencies ∧ z = p.1) := by
  intro L
  induction L with
  | nil => intro s h; exact Or.inl h
  | cons p L ih =>
    intro s h
    simp only [List.foldl_cons] at h
    rcases ih _ h with h1 | ⟨q, hq, hcase⟩
    · rcases applyBlock_rdeps_sub h1 with h2 | hcase
      · exact Or.inl h2
      · exact Or.inr ⟨p, List.mem_cons_self _ _, hcase⟩
    · exact Or.inr ⟨q, List.mem_cons_of_mem _ hq, hcase⟩

theorem merge_presD_iff {a b : Dag V} (hTa : NodupTR a)
    (hcb : completeB b = true) {x : Nat} :
    presD (a.merge b) x ↔ presD a x ∨ presD b x := by
  rw [merge_eq_foldl]
  constructor
  · intro h
    rcases blocks_presD_sub _ _ h with h1 | ⟨p, hp, hpx⟩
    · exact Or.inl h1
    · right
      subst hpx
      show (lookupA b.graph p.1).isSome = true
      rw [procList_entries p hp]
      rfl
  · rintro (h | h)
    · exact blocks_presD _ _ h
    · rw [presD_iff_mem_keys] at h
      obtain ⟨nd, hp⟩ := completeB_spec hcb h
      exact (merge_facts _ a hTa (x, nd) hp).1

theorem merge_deps_iff {a b : Dag V} (hTa : NodupTR a) (hsb : symmB b = true)
    (hcb : completeB b = true) {x z : Nat} :
    z ∈ depsOf (a.merge b) x ↔ z ∈ depsOf a x ∨ z ∈ depsOf b x := by
  rw [merge_eq_foldl]
  constructor
  · intro h
    rcases blocks_deps_sub _ _ h with h1 | ⟨p, hp, hcase⟩
    · exact Or.inl h1
    · right
      have hpb := procList_entries p hp
      rcases hcase with ⟨rfl, hz⟩ | ⟨hx, rfl⟩
      · exact mem_depsOf_iff.mpr ⟨p.2, hpb, hz⟩
      · obtain ⟨nx, hnx, hmem⟩ := symmB_rdeps hsb hpb hx
        exact mem_depsOf_iff.mpr ⟨nx, hnx, hmem⟩
  · rintro (h | h)
    · exact blocks_depsMem _ _ h
    · obtain ⟨nx, hnx, hz⟩ := mem_depsOf_iff.mp h
      obtain ⟨nd2, hp2⟩ := completeB_spec hcb (lookupA_mem_keys hnx)
      have heq := procList_entries _ hp2
      rw [hnx] at heq
      injection heq with heq
      subst heq
      exact (merge_facts _ a hTa (x, nx) hp2).2.1 z hz

theorem merge_rdeps_iff {a b : Dag V} (hTa : NodupTR a) (hsb : symmB b = true)
    (hcb : completeB b = true) {x z : Nat} :
    z ∈ rdepsOf (a.merge b) x ↔ z ∈ rdepsOf a x ∨ z ∈ rdepsOf b x := by
  rw [merge_eq_foldl]
  constructor
  · intro h
    rcases blocks_rdeps_sub _ _ h with h1 | ⟨p, hp, hcase⟩
    · exact Or.inl h1
    · right
      have hpb := procList_entries p hp
      rcases hcase with ⟨rfl, hz⟩ | ⟨hx, rfl⟩
      · exact mem_rdepsOf_iff.mpr ⟨p.2, hpb, hz⟩
      · obtain ⟨nx, hnx, hmem⟩ := symmB_deps hsb hpb hx
        exact mem_rdepsOf_iff.mpr ⟨nx, hnx, hmem⟩
  · rintro (h | h)
    · exact blocks_rdepsMem _ _ h
    · obtain ⟨nx, hnx, hz⟩ := mem_rdepsOf_iff.mp h
      obtain ⟨nd2, hp2⟩ := completeB_spec hcb (lookupA_mem_keys hnx)
      have heq := procList_entries _ hp2
      rw [hnx] at heq
      injection heq with heq
      subst heq
      exact (merge_facts _ a hTa (x, nx) hp2).2.2.2.1 z hz

theorem tips_iff_cacheWF {s : Dag V} (h : CacheWF s) {x : Nat} :
    x ∈ s.tips ↔ presD s x ∧ rdepsOf s x = [] := by
  rw [h.2.2.1 x]
  constructor
  · rintro ⟨nd, hnd, hdeps⟩
    have hl : lookupA s.graph x = some nd := hnd
    refine ⟨by rw [presD, hl]; rfl, ?_⟩
    simp [rdepsOf, hl, hdeps]
  · rintro ⟨hp, hr⟩
    obtain ⟨nd, hnd⟩ := Option.isSome_iff_exists.mp hp
    refine ⟨nd, hnd, ?_⟩
    simpa [rdepsOf, hnd] using hr

theorem roots_iff_cacheWF {s : Dag V} (h : CacheWF s) {x : Nat} :
    x ∈ s.roots ↔ presD s x ∧ depsOf s x = [] := by
  rw [h.2.2.2 x]
  constructor
  · rintro ⟨nd, hnd, hdeps⟩
    have hl : lookupA s.graph x = some nd := hnd
    refine ⟨by rw [presD, hl]; rfl, ?_⟩
    simp [depsOf, hl, hdeps]
  · rintro ⟨hp, hr⟩
    obtain ⟨nd, hnd⟩ := Option.isSome_iff_exists.mp hp
    refine ⟨nd, hnd, ?_⟩
    simpa [depsOf, hnd] using hr

theorem eq_nil_iff_of_mem_iff {u v : List Nat} (h : ∀ z, z ∈ u ↔ z ∈ v) :
    u = [] ↔ v = [] := by
  rw [List.eq_nil_iff_forall_not_mem, List.eq_nil_iff_forall_not_mem]
  constructor
  · intro hu z hz
    exact hu z ((h z).mpr hz)
  · intro hv z hz
    exact hv z ((h z).mp hz)

end ClaimC5Machinery

/-- Equality of the observable state of two DAGs: node set (`contains`),
dependency and dependent edge sets, cached tips and cached roots. -/
def MergeObsEq {V : Type} (m1 m2 : Dag V) : Prop :=
  (∀ x, m1.contains x = m2.contains x) ∧
  (∀ x z, z ∈ depsOf m1 x ↔ z ∈ depsOf m2 x) ∧
  (∀ x z, z ∈ rdepsOf m1 x ↔ z ∈ rdepsOf m2 x) ∧
  (∀ x, x ∈ m1.tips ↔ x ∈ m2.tips) ∧
  (∀ x, x ∈ m1.roots ↔ x ∈ m2.roots)

/-- Claim C5 as amended: for graphs `a` and `b` with well-formed caches,
symmetric edge records, and merge traversals that process every key,
`a.merge b` and `b.merge a` agree on the node set, both edge sets, the
tips and the roots. -/
theorem claim_C5 {V : Type} (a b : Dag V) (hWa : CacheWF a) (hWb : CacheWF b)
    (hsa : symmB a = true) (hsb : symmB b = true)
    (hca : completeB a = true) (hcb : completeB b = true) :
    MergeObsEq (a.merge b) (b.merge a) := by
  have hTa : NodupTR a := ⟨hWa.1, hWa.2.1⟩
  have hTb : NodupTR b := ⟨hWb.1, hWb.2.1⟩
  have hpres : ∀ x, presD (a.merge b) x ↔ presD (b.merge a) x := by
    intro x
    rw [merge_presD_iff hTa hcb, merge_presD_iff hTb hca]
    exact or_comm
  have hdeps : ∀ x z, z ∈ depsOf (a.merge b) x ↔ z ∈ depsOf (b.merge a) x := by
    intro x z
    rw [merge_deps_iff hTa hsb hcb, merge_deps_iff hTb hsa hca]
    exact or_comm
  have hrdeps : ∀ x z, z ∈ rdepsOf (a.merge b) x ↔ z ∈ rdepsOf (b.merge a) x := by
    intro x z
    rw [merge_rdeps_iff hTa hsb hcb, merge_rdeps_iff hTb hsa hca]
    exact or_comm
  have hW1 : CacheWF (a.merge b) := cacheWF_merge b hWa
  have hW2 : CacheWF (b.merge a) := cacheWF_merge a hWb
  refine ⟨?_, hdeps, hrdeps, ?_, ?_⟩
  · intro x
    have h := hpres x
    cases h1 : (a.merge b).contains x with
    | true =>
      have h2 : presD (a.merge b) x := h1
      exact (h.mp h2).symm
    | false =>
      cases h2 : (b.merge a).contains x with
      | true =>
        have h3 : (a.merge b).contains x = true := h.mpr h2
        rw [h1] at h3
        exact Bool.noConfusion h3
      | false => rfl
  · intro x
    rw [tips_iff_cacheWF hW1, tips_iff_cacheWF hW2]
    exact and_congr (hpres x) (eq_nil_iff_of_mem_iff (fun z => hrdeps x z))
  · intro x
    rw [roots_iff_cacheWF hW1, roots_iff_cacheWF hW2]
    exact and_congr (hpres x) (eq_nil_iff_of_mem_iff (fun z => hdeps x z))

/-- Counterexample graph for C5 as stated: a well-formed single component
sharing root 0 with `dagC4b`. -/
def dagC5x : Dag Nat :=
  ((Dag.new Nat).node 0 10).1.node 2 12 |>.1.dependency 2 0

/-- Claim C5 is false as stated: `dagC5x` and `dagC4b` are each one
connected component fully processed by the merge traversal from their
shared root 0, yet the two merge orders produce different tip caches —
merging `dagC4b` second re-issues its `dependency 1 2` record against a
present key 2 and erases 2 from the tips, while merging it first does
not. -/
theorem claim_C5_counterexample :
    dagC5x.roots = [0] ∧ dagC4b.roots = [0] ∧
    procKeys dagC5x = [0, 2] ∧ procKeys dagC4b = [0, 1, 2] ∧
    (dagC5x.merge dagC4b).tips ≠ (dagC4b.merge dagC5x).tips := by
  refine ⟨by decide, by decide, ?_, ?_, ?_⟩
  · simp [procKeys, dagC5x, Dag.new, Dag.node, Dag.dependency, Dag.rootsF,
      lookupA, insertA, updateA, insertS, insertAsc, removeA, procAux]
  · simp [procKeys, dagC4b, Dag.new, Dag.node, Dag.dependency, Dag.rootsF,
      lookupA, insertA, updateA, insertS, insertAsc, removeA, procAux]
  · simp [Dag.merge, dagC5x, dagC4b, Dag.new, Dag.node, Dag.dependency,
      Dag.rootsF, lookupA, insertA, updateA, insertS, insertAsc, removeA,
      mergeAux, Dag.contains]

/-- Witness graphs for C5: two well-formed components sharing root 0. -/
def dagC5a : Dag Nat :=
  applyOps (Dag.new Nat) [DagOp.nodeOp 0 10, DagOp.nodeOp 1 11, DagOp.depOp 1 0]

/-- Second witness graph for C5. -/
def dagC5b : Dag Nat :=
  applyOps (Dag.new Nat) [DagOp.nodeOp 0 20, DagOp.nodeOp 2 22, DagOp.depOp 2 0]

/-- Witness instantiating `claim_C5` on two concrete well-formed graphs
sharing root 0, with every hypothesis discharged concretely. -/
theorem claim_C5_witness :
    CacheWF dagC5a ∧ CacheWF dagC5b ∧
    symmB dagC5a = true ∧ symmB dagC5b = true ∧
    completeB dagC5a = true ∧ completeB dagC5b = true ∧
    MergeObsEq (dagC5a.merge dagC5b) (dagC5b.merge dagC5a) := by
  have hWa : CacheWF dagC5a :=
    cacheWF_applyOps [DagOp.nodeOp 0 10, DagOp.nodeOp 1 11, DagOp.depOp 1 0]
      cacheWF_new
  have hWb : CacheWF dagC5b :=
    cacheWF_applyOps [DagOp.nodeOp 0 20, DagOp.nodeOp 2 22, DagOp.depOp 2 0]
      cacheWF_new
  have hca : completeB dagC5a = true := by
    simp [completeB, procList, keysList, dagC5a, applyOps, applyOp, Dag.new,
      Dag.node, Dag.dependency, Dag.rootsF, lookupA, insertA, updateA,
      insertS, insertAsc, removeA, procAux]
  have hcb : completeB dagC5b = true := by
    simp [completeB, procList, keysList, dagC5b, applyOps, applyOp, Dag.new,
      Dag.node, Dag.dependency, Dag.rootsF, lookupA, insertA, updateA,
      insertS, insertAsc, removeA, procAux]
  exact ⟨hWa, hWb, by decide, by decide, hca, hcb,
    claim_C5 dagC5a dagC5b hWa hWb (by decide) (by decide) hca hcb⟩

example : (Dag.new Unit).len = 0 := rfl

example :
    let d := ((Dag.new Unit).node 0 ()).1
    let d := (d.node 1 ()).1
    let d := d.dependency 1 0
    d.hasDependency 1 0 = true ∧ d.hasDependency 0 1 = false ∧
      d.tips = [1] ∧ d.roots = [0] := by decide

end Radicle
